import Mathlib

/-!
# Verification of the openclaw-patcher patch reconciliation engine

Shallow embedding of the string-level core of the patcher:

* `applyDiffHunks` / `parseDiffHunks` — hunk application and the
  `=== BEFORE === / === AFTER === / === END ===` block parser
  (`src/unnamed/part_000`, also duplicated in `src/src/patch-manager.ts`);
* `hunksToSimpleFormat` and `findMinimalPattern` (`src/src/diff-converter.ts`);
* `compareVersions` / `matchVersionRange` (`src/unnamed/part_000`);
* the pure per-patch state check (`checkPatch`, `checkJsPatch`,
  `checkDiffPatch`) and the apply short-circuit (`applyPatch`);
* the PR import partition of `scaffoldFromPR` together with
  `findPatternsInBundles` and `parsePRFilePatch`.

Strings are modelled as `List Char`; file I/O is modelled by passing the
file contents (resp. directory listings) that the TypeScript code reads as
explicit arguments, in the order the code reads them.
-/

/-- Abbreviation used throughout: a JavaScript string as a list of characters. -/
abbrev Str := List Char

/-- Convert a Lean string literal to the `List Char` representation. -/
def toL (s : String) : Str := s.toList

/-! ## Basic JavaScript string operations -/

/-- JS `haystack.includes(needle)`: `needle` occurs as a contiguous substring
(the empty string occurs in every string). -/
def hasSubstr : Str → Str → Bool
  | s, pat =>
    match s with
    | [] => pat.isEmpty
    | _ :: rest => pat.isPrefixOf s || hasSubstr rest pat

/-- Index of the first occurrence of `pat` in `s` (JS `indexOf`), if any. -/
def firstIdx : Str → Str → Option Nat
  | s, pat =>
    match s with
    | [] => if pat.isEmpty then some 0 else none
    | _ :: rest =>
      if pat.isPrefixOf s then some 0
      else (firstIdx rest pat).map (· + 1)

/-- `occursAt pat s i` : the pattern occurs in `s` starting at index `i`. -/
def OccursAt (pat s : Str) (i : Nat) : Prop := pat <+: s.drop i

instance (pat s : Str) (i : Nat) : Decidable (OccursAt pat s i) := by
  unfold OccursAt; infer_instance

/-- Somewhere-occurrence of a pattern. -/
def Occurs (pat s : Str) : Prop := ∃ i, OccursAt pat s i

/-! ## JS `String.prototype.replace` with a string pattern

`result.replace(old, new)` replaces the first occurrence of `old` and runs
ECMAScript `GetSubstitution` on the replacement string: `$$` yields `$`,
`$&` the matched text, `` $` `` the text before the match, `$'` the text
after the match; any other `$`-sequence is copied literally (there are no
capture groups for a string pattern). -/

/-- The backtick character `` ` ``. -/
def backquoteChar : Char := Char.ofNat 96

/-- The apostrophe character `'`. -/
def squoteChar : Char := Char.ofNat 39

/-- ECMAScript `GetSubstitution` for a string search value (no captures):
expand `$`-sequences in the replacement `repl`, where `matched` is the text
that was matched, `before` the part of the subject before the match and
`after` the part after the match. -/
def expandDollar (matched before after : Str) : Str → Str
  | [] => []
  | '$' :: '$' :: rest => '$' :: expandDollar matched before after rest
  | '$' :: '&' :: rest => matched ++ expandDollar matched before after rest
  | '$' :: c :: rest =>
    if c = backquoteChar then before ++ expandDollar matched before after rest
    else if c = squoteChar then after ++ expandDollar matched before after rest
    else '$' :: expandDollar matched before after (c :: rest)
  | c :: rest => c :: expandDollar matched before after rest

/-- JS `s.replace(old, new)` with a string pattern: replace the first
occurrence of `old` (if any) by the `GetSubstitution`-expanded `new`. -/
def jsReplaceFirst (s old new : Str) : Str :=
  match firstIdx s old with
  | none => s
  | some i =>
    s.take i ++ expandDollar old (s.take i) (s.drop (i + old.length)) new
      ++ s.drop (i + old.length)

/-! ## Hunks and `applyDiffHunks` -/

/-- A replacement pair parsed from a patch (`DiffHunk` in the source). -/
structure Hunk where
  oldText : Str
  newText : Str
  deriving DecidableEq, Repr

/-- `applyDiffHunks(content, hunks)` from `src/unnamed/part_000` (and
identically in `src/src/patch-manager.ts`):

```js
let result = content;
for (const hunk of hunks) {
  if (result.includes(hunk.oldText)) {
    result = result.replace(hunk.oldText, hunk.newText);
  }
}
return result;
``` -/
def applyDiffHunks (content : Str) (hunks : List Hunk) : Str :=
  hunks.foldl
    (fun result h =>
      if hasSubstr result h.oldText then jsReplaceFirst result h.oldText h.newText
      else result)
    content

/-! ## Version comparison (`compareVersions`, `matchVersionRange`)

From `src/unnamed/part_000`:

```js
function compareVersions(a, b) {
  const normalize = (v) => v.split("-")[0];
  const partsA = normalize(a).split(".").map(Number);
  const partsB = normalize(b).split(".").map(Number);
  const maxLen = Math.max(partsA.length, partsB.length);
  for (let i = 0; i < maxLen; i++) {
    const numA = partsA[i] ?? 0;
    const numB = partsB[i] ?? 0;
    if (numA < numB) return -1;
    if (numA > numB) return 1;
  }
  return 0;
}
```

`Number(component)` is ECMAScript string-to-number conversion.  We model the
result as `JsNum` (NaN, signed infinity, or an exact rational); IEEE-754
rounding/overflow of huge literals is not modelled — on version components
of realistic size the two agree exactly. -/

/-- Result of JS `Number(string)`: NaN, ±Infinity, or a numeric value
(modelled exactly as a rational rather than a 64-bit float). -/
inductive JsNum
  | nan
  | inf (pos : Bool)
  | num (q : ℚ)
  deriving DecidableEq, Repr

/-- JS whitespace characters stripped by `Number` (the common ASCII set plus
NBSP and BOM; other Unicode space characters do not occur in version strings). -/
def jsWhitespace (c : Char) : Bool :=
  c = ' ' || c = '\t' || c = '\n' || c = '\r' ||
  c = Char.ofNat 11 || c = Char.ofNat 12 || c = Char.ofNat 0xA0 || c = Char.ofNat 0xFEFF

/-- Strip JS whitespace from both ends (used by `Number` and by
`String.prototype.trim`). -/
def jsTrim (s : Str) : Str :=
  ((s.dropWhile jsWhitespace).reverse.dropWhile jsWhitespace).reverse

/-- Value of a digit character in the given base, if valid. -/
def digitVal (base : Nat) (c : Char) : Option Nat :=
  let v :=
    if '0' ≤ c ∧ c ≤ '9' then some (c.toNat - 48)
    else if 'a' ≤ c ∧ c ≤ 'f' then some (c.toNat - 87)
    else if 'A' ≤ c ∧ c ≤ 'F' then some (c.toNat - 55)
    else none
  match v with
  | some d => if d < base then some d else none
  | none => none

/-- Parse a non-empty all-digit string in the given base. -/
def digitsVal (base : Nat) : Str → Option Nat
  | [] => none
  | s => go s 0
where
  go : Str → Nat → Option Nat
    | [], acc => some acc
    | c :: rest, acc =>
      match digitVal base c with
      | some d => go rest (acc * base + d)
      | none => none

/-- Split a string at the first character satisfying `p`:
returns the part before and (if found) the part after that character. -/
def splitFirst (p : Char → Bool) : Str → Str × Option Str
  | [] => ([], none)
  | c :: rest =>
    if p c then ([], some rest)
    else
      let (pre, post) := splitFirst p rest
      (c :: pre, post)

/-- Multiply by the power of ten given by the exponent part. -/
def applyExp (q : ℚ) (e : ℤ) : ℚ :=
  if 0 ≤ e then q * (10 : ℚ) ^ e.toNat else q / (10 : ℚ) ^ (-e).toNat

/-- Parse an unsigned decimal literal `digits [. digits] [e[±]digits]`
(at least one mantissa digit required). -/
def parseDecimalUnsigned (s : Str) : Option ℚ :=
  let (mant, expPart) := splitFirst (fun c => c = 'e' || c = 'E') s
  let (intPart, fracPart) := splitFirst (fun c => c = '.') mant
  let intVal : Option ℚ :=
    match intPart, fracPart with
    | [], none => none
    | [], some [] => none
    | [], some f => (digitsVal 10 f).map (fun n => (n : ℚ) / (10 : ℚ) ^ f.length)
    | d, none => (digitsVal 10 d).map (fun n => (n : ℚ))
    | d, some [] => (digitsVal 10 d).map (fun n => (n : ℚ))
    | d, some f =>
      match digitsVal 10 d, digitsVal 10 f with
      | some n, some m => some ((n : ℚ) + (m : ℚ) / (10 : ℚ) ^ f.length)
      | _, _ => none
  match intVal with
  | none => none
  | some q =>
    match expPart with
    | none => some q
    | some e =>
      let (sign, digits) :=
        match e with
        | '+' :: rest => (1, rest)
        | '-' :: rest => (-1, rest)
        | rest => ((1 : ℤ), rest)
      match digitsVal 10 digits with
      | some n => some (applyExp q (sign * n))
      | none => none

/-- ECMAScript `Number(string)` (`StringToNumber`): trim whitespace, empty
string is `0`, `0x`/`0o`/`0b` radix literals, otherwise an optionally signed
decimal literal or `Infinity`; anything else is NaN. -/
def jsStringToNumber (s : Str) : JsNum :=
  let t := jsTrim s
  match t with
  | [] => .num 0
  | '0' :: c :: rest =>
    if c = 'x' || c = 'X' then
      match digitsVal 16 rest with
      | some n => .num n
      | none => .nan
    else if c = 'o' || c = 'O' then
      match digitsVal 8 rest with
      | some n => .num n
      | none => .nan
    else if c = 'b' || c = 'B' then
      match digitsVal 2 rest with
      | some n => .num n
      | none => .nan
    else
      match parseDecimalUnsigned t with
      | some q => .num q
      | none => .nan
  | t =>
    let (pos, body) :=
      match t with
      | '+' :: rest => (true, rest)
      | '-' :: rest => (false, rest)
      | rest => (true, rest)
    if body = toL "Infinity" then .inf pos
    else
      match parseDecimalUnsigned body with
      | some q => .num (if pos then q else -q)
      | none => .nan

/-- JS `<` on `Number` values: any comparison involving NaN is false. -/
def jsLt : JsNum → JsNum → Bool
  | .nan, _ => false
  | _, .nan => false
  | .inf true, _ => false
  | .inf false, .inf false => false
  | .inf false, _ => true
  | .num _, .inf true => true
  | .num _, .inf false => false
  | .num a, .num b => decide (a < b)

/-- JS `split(sep)` for a single-character separator. -/
def splitOnChar (sep : Char) : Str → List Str
  | [] => [[]]
  | c :: rest =>
    if c = sep then [] :: splitOnChar sep rest
    else
      match splitOnChar sep rest with
      | [] => [[c]]
      | l :: ls => (c :: l) :: ls

/-- `normalize` inside `compareVersions`: `v.split("-")[0]`. -/
def normalizeVersion (v : Str) : Str := (splitOnChar '-' v).headD []

/-- `normalize(v).split(".").map(Number)`. -/
def versionParts (v : Str) : List JsNum :=
  (splitOnChar '.' (normalizeVersion v)).map jsStringToNumber

/-- Tail of the comparison loop once the first version has run out of
components: each remaining component of `b` is compared against the default
`0` (`partsA[i] ?? 0`). -/
def cmpTail : List JsNum → Int
  | [] => 0
  | b :: bs =>
    if jsLt (.num 0) b then -1 else if jsLt b (.num 0) then 1 else cmpTail bs

/-- The body of the comparison loop: components missing on one side default
to `0` (`partsX[i] ?? 0`); return on the first strict inequality. -/
def cmpParts : List JsNum → List JsNum → Int
  | [], bs => cmpTail bs
  | a :: as, [] =>
    if jsLt a (.num 0) then -1 else if jsLt (.num 0) a then 1 else cmpParts as []
  | a :: as, b :: bs =>
    if jsLt a b then -1 else if jsLt b a then 1 else cmpParts as bs

/-- `compareVersions(a, b)` from `src/unnamed/part_000`. -/
def compareVersions (a b : Str) : Int :=
  cmpParts (versionParts a) (versionParts b)

/-- JS truthiness of a string: nonempty. -/
def truthy (s : Str) : Bool := !s.isEmpty

/-- JS truthiness of `string | undefined | null`. -/
def truthyO : Option Str → Bool
  | none => false
  | some s => truthy s

/-- Result record of `matchVersionRange`. -/
structure VersionMatchResult where
  isMatch : Bool
  reason : Str
  deriving DecidableEq, Repr

/-- `matchVersionRange(version, minVersion?, maxVersion?)` from
`src/unnamed/part_000`: min inclusive, max exclusive, falsy bounds skipped. -/
def matchVersionRange (version : Str) (minVersion maxVersion : Option Str) :
    VersionMatchResult :=
  if truthyO minVersion && decide (compareVersions version (minVersion.getD []) < 0) then
    ⟨false, toL "Version " ++ version ++ toL " is below minimum " ++ minVersion.getD []⟩
  else if truthyO maxVersion &&
      decide (0 ≤ compareVersions version (maxVersion.getD [])) then
    ⟨false, toL "Version " ++ version ++ toL " is at or above maximum " ++ maxVersion.getD []⟩
  else
    ⟨true, toL "Version in range"⟩

/-! ## `findMinimalPattern` (`src/src/diff-converter.ts`) -/

/-- Condition of the first selection loop of `findMinimalPattern`: the
trimmed line contains one of the marker substrings, or is at least
`minLength` characters and is not a `//` comment:

```js
trimmed.includes("function ") || trimmed.includes("const ") ||
trimmed.includes("let ") || trimmed.includes("export ") ||
trimmed.includes("=>") ||
(trimmed.length >= minLength && !trimmed.startsWith("//"))
``` -/
def markerOrLong (minLength : Nat) (trimmed : Str) : Bool :=
  hasSubstr trimmed (toL "function ") || hasSubstr trimmed (toL "const ") ||
  hasSubstr trimmed (toL "let ") || hasSubstr trimmed (toL "export ") ||
  hasSubstr trimmed (toL "=>") ||
  (decide (minLength ≤ trimmed.length) && !((toL "//").isPrefixOf trimmed))

/-- `findMinimalPattern(oldText, minLength = 20)` from
`src/src/diff-converter.ts`: the two `for`/`return` loops become `find?`
over the non-blank lines. -/
def findMinimalPattern (oldText : Str) (minLength : Nat := 20) : Str :=
  match ((splitOnChar '\n' oldText).filter (fun l => 0 < (jsTrim l).length)).find?
      (fun l => markerOrLong minLength (jsTrim l)) with
  | some l => jsTrim l
  | none =>
    match ((splitOnChar '\n' oldText).filter (fun l => 0 < (jsTrim l).length)).find?
        (fun l => decide (minLength ≤ (jsTrim l).length)) with
    | some l => jsTrim l
    | none => oldText.take (min oldText.length 100)

/-! ## The BEFORE/AFTER block format (`parseDiffHunks`, `hunksToSimpleFormat`)

`parseDiffHunks` repeatedly runs the global regex

```js
/=== BEFORE ===\n([\s\S]*?)\n=== AFTER ===\n([\s\S]*?)\n=== END ===/g
```

The pattern starts with the literal `=== BEFORE ===\n`, so a match begins at
the leftmost index where that literal occurs *and* the two lazy groups can be
completed: the first group ends at the first later occurrence of
`\n=== AFTER ===\n` that is still followed (anywhere) by `\n=== END ===`,
and the second group ends at the first occurrence of `\n=== END ===` after
that.  `lastIndex` then advances to the end of the match. -/

/-- The literal `=== BEFORE ===` followed by a newline. -/
def beforeMarker : Str := toL "=== BEFORE ===\n"

/-- The literal `=== AFTER ===` framed by newlines. -/
def afterMarker : Str := toL "\n=== AFTER ===\n"

/-- Newline followed by the literal `=== END ===`. -/
def endMarker : Str := toL "\n=== END ==="

/-- First index `k` at which `patA` occurs such that `patE` still occurs
somewhere after it: the backtracking choice of the first lazy group. -/
def firstQualIdx (patA patE : Str) : Str → Option Nat
  | [] =>
    if patA.isPrefixOf [] && hasSubstr (([] : Str).drop patA.length) patE then some 0
    else none
  | c :: rest =>
    if patA.isPrefixOf (c :: rest) && hasSubstr ((c :: rest).drop patA.length) patE then
      some 0
    else (firstQualIdx patA patE rest).map (· + 1)

/-- Leftmost index where a whole block match can start: `beforeMarker`
occurs there, and both lazy groups can be completed after it. -/
def findBlockStart : Str → Option Nat
  | [] =>
    if beforeMarker.isPrefixOf [] &&
        (firstQualIdx afterMarker endMarker (([] : Str).drop beforeMarker.length)).isSome
      then some 0
    else none
  | c :: rest =>
    if beforeMarker.isPrefixOf (c :: rest) &&
        (firstQualIdx afterMarker endMarker
          ((c :: rest).drop beforeMarker.length)).isSome then
      some 0
    else (findBlockStart rest).map (· + 1)

/-- The `while ((match = blockRegex.exec(diff)) !== null)` loop.  Each
iteration consumes at least the three markers, so `s.length + 1` rounds of
fuel always suffice; the fuel only makes the recursion structural. -/
def parseBlocksFuel : Nat → Str → List Hunk
  | 0, _ => []
  | fuel + 1, s =>
    match findBlockStart s with
    | none => []
    | some j =>
      let s1 := s.drop (j + beforeMarker.length)
      match firstQualIdx afterMarker endMarker s1 with
      | none => []
      | some k =>
        let s2 := s1.drop (k + afterMarker.length)
        match firstIdx s2 endMarker with
        | none => []
        | some m =>
          ⟨s1.take k, s2.take m⟩ :: parseBlocksFuel fuel (s2.drop (m + endMarker.length))

/-- `parseDiffHunks(diff)` from `src/unnamed/part_000` (and
`src/src/patch-manager.ts`). -/
def parseDiffHunks (diff : Str) : List Hunk :=
  parseBlocksFuel (diff.length + 1) diff

/-- One serialized block.  In `hunksToSimpleFormat` both the modification
branch and the pure-deletion branch produce exactly this text (the deletion
branch is the special case `newText = ""`). -/
def hunkBlock (h : Hunk) : Str :=
  beforeMarker ++ h.oldText ++ afterMarker ++ h.newText ++ endMarker

/-- JS `Array.prototype.join(sep)`. -/
def joinWith (sep : Str) : List Str → Str
  | [] => []
  | [l] => l
  | l :: l2 :: ls => l ++ sep ++ joinWith sep (l2 :: ls)

/-- `hunksToSimpleFormat(hunks)` from `src/src/diff-converter.ts`: hunks
with falsy (empty) `oldText` are skipped, the rest are serialized and the
blocks joined with a blank line. -/
def hunksToSimpleFormat (hunks : List Hunk) : Str :=
  joinWith (toL "\n\n")
    (hunks.filterMap (fun h => if h.oldText ≠ [] then some (hunkBlock h) else none))

/-- Round-trip side condition on a hunk: `oldText` is nonempty (empty ones
are dropped by serialization), `oldText` does not contain the text
`=== AFTER ===`, and `newText` does not contain `=== END ===` (texts that
embed a marker change where the lazy groups of the parsing regex end). -/
def cleanHunk (h : Hunk) : Bool :=
  !h.oldText.isEmpty && !hasSubstr h.oldText (toL "=== AFTER ===") &&
    !hasSubstr h.newText (toL "=== END ===")

/-! ## Per-patch state check (`checkPatch` and helpers, `src/unnamed/part_000`)

The pure content of the `async` functions: every `fs` read that the code
performs is replaced by an explicit argument holding the value read, in
reading order.  `env.targetFiles` is the result of `resolveTargetFiles`
paired with each file's content, `env.diffContent` the text of `patch.diff`,
`env.jsModule` the result of `loadJsPatchModule` (`none` = load failed), and
`env.lstat` the `fs.lstat` outcome per asset destination. -/

/-- Patch states (the `state` strings of `PatchStatus`). -/
inductive PState
  | pending
  | applied
  | resolved
  | disabled
  | error
  deriving DecidableEq, Repr

/-- The `state`/`message` part of a `PatchStatus` record. -/
structure PatchStatusR where
  state : PState
  message : Str
  deriving DecidableEq, Repr

/-- The three-function contract of a loaded `patch.js` module; each function
takes `(fileContent, filePath)`. -/
structure JsPatchModule where
  check : Str → Str → Bool
  isResolved : Str → Str → Bool
  apply : Str → Str → Str

/-- Asset operation types. -/
inductive AssetType
  | copy
  | symlink
  | mkdir
  deriving DecidableEq, Repr

/-- One declared asset operation. -/
structure AssetOperation where
  src : Str
  dest : Str
  type : AssetType
  deriving DecidableEq, Repr

/-- Patch kinds (`meta.type`). -/
inductive PatchType
  | js
  | diff
  | asset
  deriving DecidableEq, Repr

/-- The fields of `patch.json` that the state machine reads. -/
structure PatchMeta where
  enabled : Bool
  type : PatchType
  targetFiles : List Str
  minVersion : Option Str
  maxVersion : Option Str
  assets : Option (List AssetOperation)
  resolvedAt : Option Str
  resolvedReason : Option Str

/-- What `fs.lstat` of an asset destination can report. -/
inductive FileKind
  | file
  | dir
  | symlink
  | other
  deriving DecidableEq, Repr

/-- The per-file scan of `checkJsPatch`: first file whose `isResolved` holds
ends the scan with Resolved, first whose `check` holds ends it with Pending,
otherwise continue; Applied once the list is exhausted. -/
def checkJsPatchScan (m : JsPatchModule) : List (Str × Str) → PatchStatusR
  | [] => ⟨.applied, toL "Already applied"⟩
  | (path, content) :: rest =>
    if m.isResolved content path then ⟨.resolved, toL "Upstream fix detected"⟩
    else if m.check content path then ⟨.pending, toL "Patch needed"⟩
    else checkJsPatchScan m rest

/-- `checkJsPatch` after target resolution: module load failure is an
error, otherwise the scan above. -/
def checkJsPatch (module? : Option JsPatchModule) (files : List (Str × Str)) :
    PatchStatusR :=
  match module? with
  | none => ⟨.error, toL "Could not load patch.js"⟩
  | some m => checkJsPatchScan m files

/-- The body of `checkDiffPatch`'s file loop for one file: all `newText`
present ⇒ Applied; else all `oldText` present ⇒ Pending; else Resolved.
Every branch returns, so only the first target file is ever inspected. -/
def diffFileVerdict (hunks : List Hunk) (content : Str) : PatchStatusR :=
  if hunks.all (fun h => hasSubstr content h.newText) then
    ⟨.applied, toL "Already applied"⟩
  else if hunks.all (fun h => hasSubstr content h.oldText) then
    ⟨.pending, toL "Patch needed"⟩
  else
    ⟨.resolved, toL "Original code no longer present; upstream may have fixed this"⟩

/-- `checkDiffPatch` after target resolution: parse `patch.diff`, error on
zero hunks, otherwise the loop above (the post-loop error is reached exactly
when the target list is empty). -/
def checkDiffPatch (diffContent : Str) (files : List (Str × Str)) : PatchStatusR :=
  let hunks := parseDiffHunks diffContent
  if hunks.length = 0 then ⟨.error, toL "No valid hunks in patch.diff"⟩
  else
    match files with
    | [] => ⟨.error, toL "No target files to check"⟩
    | (_, content) :: _ => diffFileVerdict hunks content

/-- `checkAssetPatch`: no declared assets is an error; any missing or
wrongly-typed destination ⇒ Pending, else Applied. -/
def checkAssetPatch (assets : Option (List AssetOperation))
    (lstat : Str → Option FileKind) : PatchStatusR :=
  let as := assets.getD []
  if as.length = 0 then ⟨.error, toL "No assets defined in patch.json"⟩
  else
    let anyMissing := as.any (fun a =>
      match lstat a.dest with
      | none => true
      | some k =>
        match a.type with
        | .symlink => decide (k ≠ .symlink)
        | .mkdir => decide (k ≠ .dir)
        | .copy => decide (k ≠ .file))
    if anyMissing then ⟨.pending, toL "Asset(s) missing"⟩
    else ⟨.applied, toL "All assets in place"⟩

/-- Everything `checkPatch` reads from the outside world. -/
structure CheckEnv where
  installedVersion : Option Str
  targetFiles : List (Str × Str)
  lstat : Str → Option FileKind
  jsModule : Option JsPatchModule
  diffContent : Str

/-- Join with `", "` (JS `Array.prototype.join(", ")`). -/
def joinComma (ls : List Str) : Str := List.intercalate (toL ", ") ls

/-- `checkPatch(patchName)` from `src/unnamed/part_000`, with all I/O made
explicit: missing metadata, disabled, sticky resolved, version gate, asset
dispatch, empty target resolution, then the js/diff scans. -/
def checkPatch (meta? : Option PatchMeta) (env : CheckEnv) : PatchStatusR :=
  match meta? with
  | none => ⟨.error, toL "Missing or invalid patch.json"⟩
  | some meta =>
    if !meta.enabled then ⟨.disabled, toL "Patch is disabled"⟩
    else if truthyO meta.resolvedAt then
      ⟨.resolved, meta.resolvedReason.getD (toL "Resolved upstream")⟩
    else
      let gate : Option PatchStatusR :=
        match env.installedVersion with
        | some v =>
          if truthy v then
            let vm := matchVersionRange v meta.minVersion meta.maxVersion
            if !vm.isMatch then some ⟨.disabled, vm.reason⟩ else none
          else none
        | none => none
      match gate with
      | some st => st
      | none =>
        if meta.type = .asset then checkAssetPatch meta.assets env.lstat
        else if env.targetFiles.length = 0 then
          ⟨.error, toL "No files matched patterns: " ++ joinComma meta.targetFiles⟩
        else if meta.type = .js then checkJsPatch env.jsModule env.targetFiles
        else checkDiffPatch env.diffContent env.targetFiles

/-- Decimal digits of a `Nat` (structural fuel, kernel-reducible). -/
def natDigits : Nat → Nat → Str
  | 0, _ => []
  | fuel + 1, n =>
    if n < 10 then [Char.ofNat (48 + n)]
    else natDigits fuel (n / 10) ++ [Char.ofNat (48 + n % 10)]

/-- JS number-to-string for the counts interpolated into messages. -/
def natToStr (n : Nat) : Str := natDigits (n + 1) n

/-- A side effect performed by `applyPatch`, in program order. -/
inductive WriteOp
  | fileWrite (path content : Str)
  | assetApply (ops : List AssetOperation)
  | metaWrite
  deriving Repr

/-- The per-file write loop of `applyPatch` for non-asset patches: backup
(when configured) before the patched write; a missing `patch.js` module for
a js patch aborts with an error after any backup already written.  Returns
the writes in order and whether the loop completed. -/
def applyFiles (isJs : Bool) (m? : Option JsPatchModule) (hunks : List Hunk)
    (backup : Bool) : List (Str × Str) → List WriteOp × Bool
  | [] => ([], true)
  | (path, content) :: rest =>
    let bw : List WriteOp :=
      if backup then [.fileWrite (path ++ toL ".bak") content] else []
    if isJs then
      match m? with
      | none => (bw, false)
      | some m =>
        let (ws, ok) := applyFiles isJs m? hunks backup rest
        (bw ++ [.fileWrite path (m.apply content path)] ++ ws, ok)
    else
      let (ws, ok) := applyFiles isJs m? hunks backup rest
      (bw ++ [.fileWrite path (applyDiffHunks content hunks)] ++ ws, ok)

/-- `applyPatch(patchName)` from `src/unnamed/part_000`: re-check first and
return unchanged (performing no writes) unless the state is Pending; a
pending asset patch performs its asset operations, a pending js/diff patch
runs the write loop, and success stamps the metadata. -/
def applyPatch (meta? : Option PatchMeta) (env : CheckEnv)
    (backupBeforePatch : Bool) : PatchStatusR × List WriteOp :=
  let status := checkPatch meta? env
  if status.state ≠ .pending then (status, [])
  else
    match meta? with
    | none => (status, [])
    | some meta =>
      if meta.type = .asset then
        (⟨.applied,
          toL "Applied " ++ natToStr (meta.assets.getD []).length ++ toL " asset(s)"⟩,
         [.assetApply (meta.assets.getD []), .metaWrite])
      else
        let hunks := parseDiffHunks env.diffContent
        let (ws, ok) :=
          applyFiles (meta.type = .js) env.jsModule hunks backupBeforePatch
            env.targetFiles
        if ok then
          (⟨.applied,
            toL "Applied " ++ natToStr env.targetFiles.length ++ toL " file(s)"⟩,
           ws ++ [.metaWrite])
        else (⟨.error, toL "Could not load patch.js for apply"⟩, ws)

/-! ## PR import (`scaffoldFromPR` partition, `findPatternsInBundles`,
`parsePRFilePatch`) -/

/-- A hunk parsed from a PR's per-file unified diff
(`DiffHunk` in `src/src/diff-converter.ts`). -/
structure PRDiffHunk where
  oldLines : List Str
  newLines : List Str
  oldText : Str
  newText : Str
  sourcePath : Str
  deriving DecidableEq, Repr

/-- Join lines with `"\n"` (JS `array.join("\n")`). -/
def joinNl (ls : List Str) : Str := joinWith (toL "\n") ls

/-- `createHunk(oldLines, newLines, sourcePath)`. -/
def createHunk (oldLines newLines : List Str) (sourcePath : Str) : PRDiffHunk :=
  ⟨oldLines, newLines, joinNl oldLines, joinNl newLines, sourcePath⟩

/-- JS `array.slice(-n)`: the last at most `n` elements. -/
def takeLast (n : Nat) (l : List Str) : List Str := l.drop (l.length - n)

/-- `flushHunk` inside `parsePRFilePatch`: pure insertions acquire the last
up-to-3 context lines as anchor; blocks with removed lines become ordinary
hunks; a pure insertion without context produces nothing. -/
def flushHunk (filePath : Str) (oldLines newLines contextBefore : List Str) :
    Option PRDiffHunk :=
  if oldLines.length > 0 ∨ newLines.length > 0 then
    if oldLines.length = 0 ∧ newLines.length > 0 ∧ contextBefore.length > 0 then
      let anchorLines := takeLast 3 contextBefore
      some ⟨anchorLines, anchorLines ++ newLines, joinNl anchorLines,
            joinNl (anchorLines ++ newLines), filePath⟩
    else if oldLines.length > 0 then some (createHunk oldLines newLines filePath)
    else none
  else none

/-- The mutable state of `parsePRFilePatch`'s loop (plus the accumulated
hunks). -/
structure PRParseState where
  inHunk : Bool
  oldLines : List Str
  newLines : List Str
  contextBefore : List Str
  seenChange : Bool
  hunks : List PRDiffHunk

/-- Append whatever `flushHunk` produces for the current state. -/
def prFlush (path : Str) (st : PRParseState) : List PRDiffHunk :=
  st.hunks ++ (flushHunk path st.oldLines st.newLines st.contextBefore).toList

/-- One iteration of `parsePRFilePatch`'s `for` loop. -/
def prStep (path : Str) (st : PRParseState) (line : Str) : PRParseState :=
  if (toL "@@").isPrefixOf line then
    ⟨true, [], [], [], false, prFlush path st⟩
  else if !st.inHunk then st
  else if (toL "-").isPrefixOf line then
    { st with seenChange := true, oldLines := st.oldLines ++ [line.drop 1] }
  else if (toL "+").isPrefixOf line then
    { st with seenChange := true, newLines := st.newLines ++ [line.drop 1] }
  else if (toL " ").isPrefixOf line ∨ line = [] then
    let contextLine := if (toL " ").isPrefixOf line then line.drop 1 else []
    if !st.seenChange then
      { st with contextBefore := st.contextBefore ++ [contextLine] }
    else
      ⟨st.inHunk, [], [], [contextLine], false, prFlush path st⟩
  else st

/-- `parsePRFilePatch(patch, filePath)` from `src/src/diff-converter.ts`. -/
def parsePRFilePatch (patch : Str) (filePath : Str) : List PRDiffHunk :=
  prFlush filePath
    ((splitOnChar '\n' patch).foldl (prStep filePath) ⟨false, [], [], [], false, []⟩)

/-- `findPatternsInBundles(patterns, bundleDir)` from
`src/src/diff-converter.ts`, with the directory read made explicit:
`bundles` is the list of `(filePath, content)` pairs for the entries that
matched the `gateway-cli-*.js` filter, in listing order, contents read once.
The resulting `Map` is modelled as an association list: for each pattern the
first file whose content contains it. -/
def findPatternsInBundles (patterns : List Str) (bundles : List (Str × Str)) :
    List (Str × Str) :=
  patterns.filterMap (fun pat =>
    (bundles.find? (fun fc => hasSubstr fc.2 pat)).map (fun fc => (pat, fc.1)))

/-- One entry of `unmappedHunks` in a `PRImportResult`. -/
structure UnmappedHunk where
  sourcePath : Str
  oldText : Str
  reason : Str
  deriving DecidableEq, Repr

/-- The unmapped-hunk preview:
`hunk.oldText.slice(0, 100) + (hunk.oldText.length > 100 ? "..." : "")`. -/
def previewOldText (old : Str) : Str :=
  old.take 100 ++ (if 100 < old.length then toL "..." else [])

/-- The mapped/unmapped partition loop of `scaffoldFromPR`
(`src/unnamed/part_000`): a hunk is mapped when its minimal pattern was
found in some bundle file. -/
def scaffoldPartition (allHunks : List PRDiffHunk) (bundles : List (Str × Str)) :
    List PRDiffHunk × List UnmappedHunk :=
  let pf := findPatternsInBundles (allHunks.map (fun h => findMinimalPattern h.oldText 20))
    bundles
  allHunks.foldr
    (fun h acc =>
      match pf.lookup (findMinimalPattern h.oldText 20) with
      | some _ => (h :: acc.1, acc.2)
      | none =>
        (acc.1,
         ⟨h.sourcePath, previewOldText h.oldText,
          toL "Pattern not found in any bundle file"⟩ :: acc.2))
    ([], [])

/-- The success flag, message and unmapped list of a `PRImportResult`. -/
structure PRImportResultR where
  success : Bool
  message : Str
  unmappedHunks : List UnmappedHunk
  deriving DecidableEq, Repr

/-- The decision core of `scaffoldFromPR` after hunk parsing, modelling the
non-dry-run path (the dry-run arm returns `success: true` with the same
`unmappedHunks`; the already-exists and fetch-failure arms are I/O-level and
happen before any hunk exists). -/
def scaffoldFromPRCore (patchName : Str) (prNumber : Nat)
    (allHunks : List PRDiffHunk) (bundles : List (Str × Str)) : PRImportResultR :=
  if allHunks.length = 0 then
    ⟨false, toL "No applicable code changes found in PR (no TS/JS files with patches)", []⟩
  else
    let (mapped, unmapped) := scaffoldPartition allHunks bundles
    if mapped.length = 0 then
      ⟨false,
       toL "None of the " ++ natToStr allHunks.length ++
         toL " hunk(s) could be mapped to bundle files. The PR may target code that doesn't exist in the installed version.",
       unmapped⟩
    else
      ⟨true,
       toL "Successfully created patch \"" ++ patchName ++ toL "\" from PR #" ++
         natToStr prNumber,
       unmapped⟩

/-! ## Basic facts about the string operations -/

theorem hasSubstr_iff (s pat : Str) : hasSubstr s pat = true ↔ Occurs pat s := by
  induction s with
  | nil =>
    simp only [hasSubstr, Occurs, OccursAt, List.isEmpty_iff]
    constructor
    · rintro rfl; exact ⟨0, by simp⟩
    · rintro ⟨i, h⟩; simpa using List.eq_nil_of_prefix_nil (by simpa using h)
  | cons c rest ih =>
    simp only [hasSubstr, Bool.or_eq_true, List.isPrefixOf_iff_prefix, ih]
    constructor
    · rintro (h | ⟨i, h⟩)
      · exact ⟨0, by simpa [OccursAt] using h⟩
      · exact ⟨i + 1, by simpa [OccursAt] using h⟩
    · rintro ⟨i, h⟩
      match i with
      | 0 => exact Or.inl (by simpa [OccursAt] using h)
      | i + 1 => exact Or.inr ⟨i, by simpa [OccursAt] using h⟩

theorem firstIdx_spec (s pat : Str) :
    ∀ i, firstIdx s pat = some i →
      OccursAt pat s i ∧ ∀ j, j < i → ¬ OccursAt pat s j := by
  induction s with
  | nil =>
    intro i h
    simp only [firstIdx] at h
    split at h
    · next hemp =>
      cases h
      exact ⟨by simp [OccursAt, List.isEmpty_iff.mp hemp], by omega⟩
    · exact absurd h (by simp)
  | cons c rest ih =>
    intro i h
    simp only [firstIdx] at h
    by_cases hp : pat.isPrefixOf (c :: rest)
    · simp only [hp, if_pos] at h
      cases h
      refine ⟨by simpa [OccursAt, List.isPrefixOf_iff_prefix] using hp, by omega⟩
    · simp only [hp, if_neg, Bool.false_eq_true, not_false_iff, Option.map_eq_some'] at h
      obtain ⟨j, hj, rfl⟩ := h
      obtain ⟨h1, h2⟩ := ih j hj
      refine ⟨by simpa [OccursAt] using h1, ?_⟩
      intro k hk
      match k with
      | 0 =>
        simpa [OccursAt, List.isPrefixOf_iff_prefix] using hp
      | k + 1 =>
        have := h2 k (by omega)
        simpa [OccursAt] using this

theorem firstIdx_isSome_iff (s pat : Str) :
    (firstIdx s pat).isSome ↔ Occurs pat s := by
  induction s with
  | nil =>
    constructor
    · intro h
      simp only [firstIdx] at h
      split at h
      · next hemp => exact ⟨0, by simp [OccursAt, List.isEmpty_iff.mp hemp]⟩
      · simp at h
    · rintro ⟨i, h⟩
      have hp : pat = [] := List.eq_nil_of_prefix_nil (by simpa [OccursAt] using h)
      simp [firstIdx, hp]
  | cons c rest ih =>
    simp only [firstIdx]
    by_cases hp : pat.isPrefixOf (c :: rest)
    · simp only [hp, if_pos, Option.isSome_some, true_iff]
      exact ⟨0, by simpa [OccursAt, List.isPrefixOf_iff_prefix] using hp⟩
    · simp only [hp, if_neg, Bool.false_eq_true, not_false_iff, Option.isSome_map']
      rw [ih]
      constructor
      · rintro ⟨i, h⟩; exact ⟨i + 1, by simpa [OccursAt] using h⟩
      · rintro ⟨i, h⟩
        match i with
        | 0 =>
          exact absurd (by simpa [OccursAt, List.isPrefixOf_iff_prefix] using h) hp
        | i + 1 => exact ⟨i, by simpa [OccursAt] using h⟩

example : hasSubstr (toL "hello world") (toL "o w") = true := by decide
example : hasSubstr (toL "abc") (toL "") = true := by decide
example : firstIdx (toL "abcabc") (toL "bc") = some 1 := by decide
example : jsReplaceFirst (toL "ab") (toL "a") (toL "$&$&") = toL "aab" := by decide
example : jsReplaceFirst (toL "xay") (toL "a") (toL "[$\x60|$']") = toL "x[x|y]y" := by
  decide
example :
    applyDiffHunks (toL "one two one") [⟨toL "one", toL "1"⟩] = toL "1 two one" := by
  decide

/-! ## Facts about version comparison -/

theorem jsLt_irrefl (a : JsNum) : jsLt a a = false := by
  cases a with
  | nan => rfl
  | inf pos => cases pos <;> rfl
  | num q => simp [jsLt]

theorem cmpParts_self (p : List JsNum) : cmpParts p p = 0 := by
  induction p with
  | nil => rfl
  | cons a as ih => simp [cmpParts, jsLt_irrefl, ih]

theorem compareVersions_self (v : Str) : compareVersions v v = 0 :=
  cmpParts_self _

example : compareVersions (toL "2.6") (toL "2.6.0") = 0 := by decide
example : compareVersions (toL "2.5.9") (toL "2.6.0") = -1 := by decide
example : compareVersions (toL "2026.2.6-1") (toL "2026.2.6") = 0 := by decide
example : jsStringToNumber (toL "abc") = .nan := by decide
example : jsStringToNumber (toL "999") = .num 999 := by decide
example : compareVersions (toL "abc") (toL "999.0") = 0 := by decide
example : (matchVersionRange (toL "2.0") (some (toL "2.0")) (some (toL "1.0"))).isMatch
    = false := by decide

theorem jsLt_nan_left (b : JsNum) : jsLt .nan b = false := by
  cases b with
  | nan => rfl
  | inf pos => cases pos <;> rfl
  | num q => rfl

theorem jsLt_nan_right (b : JsNum) : jsLt b .nan = false := by
  cases b with
  | nan => rfl
  | inf pos => cases pos <;> rfl
  | num q => rfl

/-- C10: version components that parse as NaN never decide the comparison —
at every position of the loop, a NaN on either side falls through to the
next component; concretely `compareVersions("abc", "999.0") === 0`, and a
non-numeric component does not by itself make `matchVersionRange` reject. -/
theorem C10_nan_components_never_decide :
    (∀ (as bs : List JsNum) (b : JsNum),
        cmpParts (.nan :: as) (b :: bs) = cmpParts as bs) ∧
    (∀ (as bs : List JsNum) (a : JsNum),
        cmpParts (a :: as) (.nan :: bs) = cmpParts as bs) ∧
    (∀ as : List JsNum, cmpParts (.nan :: as) [] = cmpParts as []) ∧
    (∀ bs : List JsNum, cmpParts [] (.nan :: bs) = cmpParts [] bs) ∧
    compareVersions (toL "abc") (toL "999.0") = 0 ∧
    (matchVersionRange (toL "abc") (some (toL "999.0")) none).isMatch = true := by
  refine ⟨?_, ?_, ?_, ?_, by decide, by decide⟩
  · intro as bs b
    simp [cmpParts, jsLt_nan_left, jsLt_nan_right]
  · intro as bs a
    simp [cmpParts, jsLt_nan_left, jsLt_nan_right]
  · intro as
    simp [cmpParts, jsLt_nan_left, jsLt_nan_right]
  · intro bs
    simp [cmpParts, cmpTail, jsLt_nan_left, jsLt_nan_right]

/-- C5 as frozen is refuted here: the claim asserts
`inRange(minVersion, minVersion, max)` is true *for any* min and max, but
with `min = "2.0"` and `max = "1.0"` (max not above min) the max-exclusive
test fires on `compareVersions("2.0","1.0") = 1 ≥ 0` and the check rejects. -/
theorem C5_counterexample :
    (matchVersionRange (toL "2.0") (some (toL "2.0")) (some (toL "1.0"))).isMatch
      = false ∧
    compareVersions (toL "2.0") (toL "2.0") = 0 := by
  decide

/-- C5 (amended): `compareVersions` strips `-suffix`, splits on `.`,
compares numerically with missing components defaulting to 0, and is
reflexive; `matchVersionRange` is min-inclusive and max-exclusive in the
following sense: `inRange(maxVersion, min, maxVersion)` is false whenever
`maxVersion` is a nonempty string, `inRange(minVersion, minVersion, max)` is
true whenever `max` is unset/empty or `minVersion` compares below `max`, and
a rejection is only ever caused by a set, nonempty bound on its own side. -/
theorem C5_version_range_amended :
    (∀ v : Str, compareVersions v v = 0) ∧
    (compareVersions (toL "2.6") (toL "2.6.0") = 0) ∧
    (∀ (minV : Option Str) (maxS : Str), maxS ≠ [] →
      (matchVersionRange maxS minV (some maxS)).isMatch = false) ∧
    (∀ (minS : Str) (maxV : Option Str),
      (truthyO maxV = false ∨ ∀ s, maxV = some s → compareVersions minS s < 0) →
      (matchVersionRange minS (some minS) maxV).isMatch = true) ∧
    (∀ (v : Str) (minV maxV : Option Str),
      (matchVersionRange v minV maxV).isMatch = false →
      (∃ s, minV = some s ∧ s ≠ [] ∧ compareVersions v s < 0) ∨
      (∃ s, maxV = some s ∧ s ≠ [] ∧ 0 ≤ compareVersions v s)) := by
  refine ⟨compareVersions_self, by decide, ?_, ?_, ?_⟩
  · intro minV maxS hne
    unfold matchVersionRange
    split
    · rfl
    · rw [if_pos]
      simp only [truthyO, truthy, Option.getD_some, Bool.not_eq_true', List.isEmpty_iff,
        Bool.and_eq_true, decide_eq_true_eq]
      exact ⟨by simpa [truthy, List.isEmpty_iff] using hne,
        by simp [compareVersions_self]⟩
  · intro minS maxV h
    unfold matchVersionRange
    rw [if_neg, if_neg]
    · intro hc
      simp only [Bool.and_eq_true, decide_eq_true_eq] at hc
      obtain ⟨h1, h2⟩ := hc
      rcases h with h | h
      · rw [h] at h1; cases h1
      · match maxV, h1 with
        | some s, _ =>
          have := h s rfl
          simp only [Option.getD_some] at h2
          omega
    · intro hc
      simp only [Bool.and_eq_true, decide_eq_true_eq, Option.getD_some] at hc
      have := compareVersions_self minS
      omega
  · intro v minV maxV h
    unfold matchVersionRange at h
    split at h
    · next hc =>
      simp only [Bool.and_eq_true, decide_eq_true_eq] at hc
      obtain ⟨h1, h2⟩ := hc
      match minV, h1 with
      | some s, h1 =>
        refine Or.inl ⟨s, rfl, ?_, by simpa using h2⟩
        simpa [truthyO, truthy, List.isEmpty_iff] using h1
    · split at h
      · next hc =>
        simp only [Bool.and_eq_true, decide_eq_true_eq] at hc
        obtain ⟨h1, h2⟩ := hc
        match maxV, h1 with
        | some s, h1 =>
          refine Or.inr ⟨s, rfl, ?_, by simpa using h2⟩
          simpa [truthyO, truthy, List.isEmpty_iff] using h1
      · simp at h

/-- Witness for C5: both range laws applied at concrete versions. -/
theorem C5_version_range_witness :
    (matchVersionRange (toL "1.0") none (some (toL "1.0"))).isMatch = false ∧
    (matchVersionRange (toL "1.0") (some (toL "1.0")) (some (toL "2.0"))).isMatch
      = true :=
  ⟨C5_version_range_amended.2.2.1 none (toL "1.0") (by decide),
   C5_version_range_amended.2.2.2.1 (toL "1.0") (some (toL "2.0"))
     (Or.inr (fun s hs => by cases hs; decide))⟩

/-- C6: in `checkDiffPatch` the already-applied test (every hunk's `newText`
present) is evaluated before the defect test (every `oldText` present), so a
target file containing both all old and all new texts is classified Applied,
not Pending. -/
theorem C6_applied_checked_before_pending :
    ∀ (diffContent content path : Str) (rest : List (Str × Str)),
      parseDiffHunks diffContent ≠ [] →
      (∀ h ∈ parseDiffHunks diffContent, hasSubstr content h.newText = true) →
      (∀ h ∈ parseDiffHunks diffContent, hasSubstr content h.oldText = true) →
      checkDiffPatch diffContent ((path, content) :: rest)
        = ⟨.applied, toL "Already applied"⟩ := by
  intro diffContent content path rest hne hnew _hold
  unfold checkDiffPatch
  simp only [List.length_eq_zero]
  rw [if_neg hne]
  unfold diffFileVerdict
  rw [if_pos]
  exact List.all_eq_true.mpr hnew

/-- Witness for C6: a one-hunk patch and a file containing old and new text. -/
theorem C6_witness :
    checkDiffPatch (toL "=== BEFORE ===\nold\n=== AFTER ===\nnew\n=== END ===")
        [(toL "f.js", toL "old and new")]
      = ⟨.applied, toL "Already applied"⟩ :=
  C6_applied_checked_before_pending _ _ _ _ (by decide) (by decide) (by decide)

/-- C1 as frozen is refuted here: for a TextHunks patch with hunks
`a→b`, `c→d` and a single target file whose content is `"a"`, the file
satisfies neither the resolved predicate (hunk 1's old text *is* present)
nor the defect predicate (hunk 2's old text is absent), so per the claim the
scan should continue past it and, the list being exhausted, return Applied —
but `checkDiffPatch` returns Resolved from the first file. -/
theorem C1_counterexample :
    hasSubstr (toL "a") (toL "a") = true ∧
    hasSubstr (toL "a") (toL "c") = false ∧
    hasSubstr (toL "a") (toL "b") = false ∧
    hasSubstr (toL "a") (toL "d") = false ∧
    checkDiffPatch
        (toL "=== BEFORE ===\na\n=== AFTER ===\nb\n=== END ===\n\n=== BEFORE ===\nc\n=== AFTER ===\nd\n=== END ===")
        [(toL "f.js", toL "a")]
      = ⟨.resolved, toL "Original code no longer present; upstream may have fixed this"⟩ ∧
    PState.resolved ≠ PState.applied := by
  decide

/-- C1 (amended): the claimed scan holds for ProgrammableEdit patches —
`checkJsPatch` stops with Resolved on the first file whose `isResolved`
holds, with Pending on the first whose `check` holds, continues on files
satisfying neither, and returns Applied once the list is exhausted.  For
TextHunks patches `checkDiffPatch` never continues: the first target file
alone decides (all new present ⇒ Applied, else all old present ⇒ Pending,
else Resolved), and an empty target list yields Error, not Applied. -/
theorem C1_check_scan_amended :
    (∀ (m : JsPatchModule) (path content : Str) (rest : List (Str × Str)),
      m.isResolved content path = true →
      checkJsPatchScan m ((path, content) :: rest)
        = ⟨.resolved, toL "Upstream fix detected"⟩) ∧
    (∀ (m : JsPatchModule) (path content : Str) (rest : List (Str × Str)),
      m.isResolved content path = false → m.check content path = true →
      checkJsPatchScan m ((path, content) :: rest) = ⟨.pending, toL "Patch needed"⟩) ∧
    (∀ (m : JsPatchModule) (path content : Str) (rest : List (Str × Str)),
      m.isResolved content path = false → m.check content path = false →
      checkJsPatchScan m ((path, content) :: rest) = checkJsPatchScan m rest) ∧
    (∀ (m : JsPatchModule) (files : List (Str × Str)),
      (∀ pc ∈ files, m.isResolved pc.2 pc.1 = false ∧ m.check pc.2 pc.1 = false) →
      checkJsPatchScan m files = ⟨.applied, toL "Already applied"⟩) ∧
    (∀ (d path content : Str) (rest : List (Str × Str)),
      parseDiffHunks d ≠ [] →
      checkDiffPatch d ((path, content) :: rest)
        = diffFileVerdict (parseDiffHunks d) content) ∧
    (∀ (hunks : List Hunk) (content : Str),
      (∀ h ∈ hunks, hasSubstr content h.newText = true) →
      diffFileVerdict hunks content = ⟨.applied, toL "Already applied"⟩) ∧
    (∀ (hunks : List Hunk) (content : Str),
      ¬ (∀ h ∈ hunks, hasSubstr content h.newText = true) →
      (∀ h ∈ hunks, hasSubstr content h.oldText = true) →
      diffFileVerdict hunks content = ⟨.pending, toL "Patch needed"⟩) ∧
    (∀ (hunks : List Hunk) (content : Str),
      ¬ (∀ h ∈ hunks, hasSubstr content h.newText = true) →
      ¬ (∀ h ∈ hunks, hasSubstr content h.oldText = true) →
      diffFileVerdict hunks content
        = ⟨.resolved, toL "Original code no longer present; upstream may have fixed this"⟩) ∧
    (∀ d : Str, parseDiffHunks d ≠ [] →
      checkDiffPatch d [] = ⟨.error, toL "No target files to check"⟩) := by
  refine ⟨?_, ?_, ?_, ?_, ?_, ?_, ?_, ?_, ?_⟩
  · intro m path content rest h
    simp [checkJsPatchScan, h]
  · intro m path content rest h1 h2
    simp [checkJsPatchScan, h1, h2]
  · intro m path content rest h1 h2
    simp [checkJsPatchScan, h1, h2]
  · intro m files hall
    induction files with
    | nil => rfl
    | cons pc rest ih =>
      obtain ⟨h1, h2⟩ := hall pc (by simp)
      have : checkJsPatchScan m (pc :: rest) = checkJsPatchScan m rest := by
        obtain ⟨path, content⟩ := pc
        simp only at h1 h2
        simp [checkJsPatchScan, h1, h2]
      rw [this]
      exact ih (fun pc hmem => hall pc (by simp [hmem]))
  · intro d path content rest hne
    unfold checkDiffPatch
    simp only [List.length_eq_zero]
    rw [if_neg hne]
  · intro hunks content hnew
    unfold diffFileVerdict
    rw [if_pos (List.all_eq_true.mpr hnew)]
  · intro hunks content hnew hold
    unfold diffFileVerdict
    rw [if_neg, if_pos (List.all_eq_true.mpr hold)]
    simpa using fun h => hnew (List.all_eq_true.mp h)
  · intro hunks content hnew hold
    unfold diffFileVerdict
    rw [if_neg, if_neg]
    · simpa using fun h => hold (List.all_eq_true.mp h)
    · simpa using fun h => hnew (List.all_eq_true.mp h)
  · intro d hne
    unfold checkDiffPatch
    simp only [List.length_eq_zero]
    rw [if_neg hne]

/-- Witness for C1: the js-scan rules at a concrete module that flags `bug`
as the defect and `fix` as the upstream resolution, and the diff-patch rules
at a concrete two-hunk patch. -/
theorem C1_check_scan_witness :
    checkJsPatchScan
        ⟨fun c _ => hasSubstr c (toL "bug"), fun c _ => hasSubstr c (toL "fix"),
         fun c _ => c⟩
        [(toL "a.js", toL "clean"), (toL "b.js", toL "has bug")]
      = ⟨.pending, toL "Patch needed"⟩ ∧
    checkJsPatchScan
        ⟨fun c _ => hasSubstr c (toL "bug"), fun c _ => hasSubstr c (toL "fix"),
         fun c _ => c⟩
        [(toL "a.js", toL "clean")]
      = ⟨.applied, toL "Already applied"⟩ ∧
    checkDiffPatch (toL "=== BEFORE ===\nold\n=== AFTER ===\nnew\n=== END ===") []
      = ⟨.error, toL "No target files to check"⟩ := by
  refine ⟨?_, ?_, ?_⟩
  · rw [C1_check_scan_amended.2.2.1 _ _ _ _ (by decide) (by decide)]
    exact C1_check_scan_amended.2.1 _ _ _ _ (by decide) (by decide)
  · exact C1_check_scan_amended.2.2.2.1 _ _ (by decide)
  · exact C1_check_scan_amended.2.2.2.2.2.2.2.2 _ (by decide)

/-- C7 as frozen is refuted here: the claim covers every *non-null*
`resolvedAt`, but the code tests JS truthiness (`if (meta.resolvedAt)`), so
an enabled patch whose `resolvedAt` is the empty string — non-null — is not
short-circuited: with a defective target file the check returns Pending, and
the apply operation then proceeds. -/
theorem C7_counterexample :
    (PatchMeta.resolvedAt
        ⟨true, .diff, [toL "dist/gateway-cli-*.js"], none, none, none, some [], none⟩
      ≠ none) ∧
    checkPatch
        (some ⟨true, .diff, [toL "dist/gateway-cli-*.js"], none, none, none,
          some [], none⟩)
        ⟨some (toL "1.0"), [(toL "f.js", toL "a")], fun _ => none, none,
          toL "=== BEFORE ===\na\n=== AFTER ===\nb\n=== END ==="⟩
      = ⟨.pending, toL "Patch needed"⟩ ∧
    PState.pending ≠ PState.resolved := by
  refine ⟨by simp, by decide, by decide⟩

/-- C7 (amended): for an enabled patch whose `resolvedAt` is a non-null,
*nonempty* string, every check returns Resolved with the stored
`resolvedReason` (or the default "Resolved upstream") regardless of the
whole environment — no target resolution or file content can influence it —
and the apply operation performs no write. -/
theorem C7_sticky_resolved_amended :
    ∀ (meta : PatchMeta) (env env2 : CheckEnv) (backup : Bool) (s : Str),
      meta.enabled = true → meta.resolvedAt = some s → s ≠ [] →
      checkPatch (some meta) env
        = ⟨.resolved, meta.resolvedReason.getD (toL "Resolved upstream")⟩ ∧
      checkPatch (some meta) env = checkPatch (some meta) env2 ∧
      applyPatch (some meta) env backup = (checkPatch (some meta) env, []) := by
  intro meta env env2 backup s hen hres hne
  have hch : ∀ e : CheckEnv, checkPatch (some meta) e
      = ⟨.resolved, meta.resolvedReason.getD (toL "Resolved upstream")⟩ := by
    intro e
    unfold checkPatch
    simp [hen, hres, truthyO, truthy, List.isEmpty_iff, hne]
  refine ⟨hch env, by rw [hch env, hch env2], ?_⟩
  unfold applyPatch
  rw [hch env]
  simp

/-- Witness for C7: a resolved record with a stored reason, checked against
two different environments, one of which has a defective target file. -/
theorem C7_sticky_resolved_witness :
    checkPatch
        (some ⟨true, .diff, [toL "dist/gateway-cli-*.js"], none, none, none,
          some (toL "2026-01-05T00:00:00Z"), some (toL "fixed upstream in 2.7")⟩)
        ⟨some (toL "1.0"), [(toL "f.js", toL "a")], fun _ => none, none,
          toL "=== BEFORE ===\na\n=== AFTER ===\nb\n=== END ==="⟩
      = ⟨.resolved, toL "fixed upstream in 2.7"⟩ ∧
    applyPatch
        (some ⟨true, .diff, [toL "dist/gateway-cli-*.js"], none, none, none,
          some (toL "2026-01-05T00:00:00Z"), some (toL "fixed upstream in 2.7")⟩)
        ⟨some (toL "1.0"), [(toL "f.js", toL "a")], fun _ => none, none,
          toL "=== BEFORE ===\na\n=== AFTER ===\nb\n=== END ==="⟩
        true
      = (⟨.resolved, toL "fixed upstream in 2.7"⟩, []) := by
  have h := C7_sticky_resolved_amended
    ⟨true, .diff, [toL "dist/gateway-cli-*.js"], none, none, none,
      some (toL "2026-01-05T00:00:00Z"), some (toL "fixed upstream in 2.7")⟩
    ⟨some (toL "1.0"), [(toL "f.js", toL "a")], fun _ => none, none,
      toL "=== BEFORE ===\na\n=== AFTER ===\nb\n=== END ==="⟩
    ⟨none, [], fun _ => none, none, []⟩
    true (toL "2026-01-05T00:00:00Z") rfl rfl (by decide)
  exact ⟨by simpa using h.1, by rw [h.2.2, h.1]; simp⟩

/-- `find?` returns the element at the first index whose predicate holds. -/
theorem find_first_index {α : Type} (p : α → Bool) :
    ∀ (l : List α) (i : Nat) (hi : i < l.length),
      p (l.get ⟨i, hi⟩) = true →
      (∀ j (hj : j < i), p (l.get ⟨j, Nat.lt_trans hj hi⟩) = false) →
      l.find? p = some (l.get ⟨i, hi⟩) := by
  intro l
  induction l with
  | nil => intro i hi; simp at hi
  | cons a rest ih =>
    intro i hi hp hmin
    match i with
    | 0 => simpa using List.find?_cons_of_pos rest (by simpa using hp)
    | i + 1 =>
      have ha : p a = false := hmin 0 (by omega)
      rw [List.find?_cons_of_neg _ (by simp [ha])]
      exact ih i (by simpa using hi) hp
        (fun j hj => hmin (j + 1) (by omega))

/-- C3 as frozen is refuted here: the claim gives marker lines strict
priority over long lines, but the code's first loop accepts *either*; on an
old text whose first non-blank line is a 20-character non-marker line and
whose second line is `function f() {`, the code returns the first line, not
the marker line.  (The same input family also shows there is no
"first non-blank line of any length" fallback: see the amended statement.) -/
theorem C3_counterexample :
    hasSubstr (toL "aaaaaaaaaaaaaaaaaaaa") (toL "function ") = false ∧
    hasSubstr (toL "aaaaaaaaaaaaaaaaaaaa") (toL "=>") = false ∧
    hasSubstr (jsTrim (toL "function f() \x7b")) (toL "function ") = true ∧
    findMinimalPattern (toL "aaaaaaaaaaaaaaaaaaaa\nfunction f() \x7b") 20
      = toL "aaaaaaaaaaaaaaaaaaaa" ∧
    toL "aaaaaaaaaaaaaaaaaaaa" ≠ toL "function f() \x7b" := by
  decide

/-- C3 (amended): `findMinimalPattern` selects, with strict priority:
(a) the first non-blank line whose trimmed form contains a marker substring
*or* is at least `minLength` characters and does not start with `//`,
trimmed; (b) only if no such line exists, the first non-blank line whose
trimmed form is at least `minLength` characters (reachable only for `//`
comment lines), trimmed; (c) only if neither exists — in particular there is
no any-length-line fallback — the first `min(length, 100)` characters of
the whole old text. -/
theorem C3_minimal_pattern_amended :
    ∀ (old : Str) (minL : Nat),
      ((splitOnChar '\n' old).filter (fun l => 0 < (jsTrim l).length)).length
          = ((splitOnChar '\n' old).filter (fun l => 0 < (jsTrim l).length)).length ∧
      (∀ i (hi : i <
          ((splitOnChar '\n' old).filter (fun l => 0 < (jsTrim l).length)).length),
        markerOrLong minL
            (jsTrim (((splitOnChar '\n' old).filter
              (fun l => 0 < (jsTrim l).length)).get ⟨i, hi⟩)) = true →
        (∀ j (hj : j < i),
          markerOrLong minL
              (jsTrim (((splitOnChar '\n' old).filter
                (fun l => 0 < (jsTrim l).length)).get ⟨j, Nat.lt_trans hj hi⟩))
            = false) →
        findMinimalPattern old minL
          = jsTrim (((splitOnChar '\n' old).filter
              (fun l => 0 < (jsTrim l).length)).get ⟨i, hi⟩)) ∧
      ((∀ l ∈ (splitOnChar '\n' old).filter (fun l => 0 < (jsTrim l).length),
          markerOrLong minL (jsTrim l) = false) →
        ∀ i (hi : i <
            ((splitOnChar '\n' old).filter (fun l => 0 < (jsTrim l).length)).length),
          minL ≤ (jsTrim (((splitOnChar '\n' old).filter
            (fun l => 0 < (jsTrim l).length)).get ⟨i, hi⟩)).length →
          (∀ j (hj : j < i),
            (jsTrim (((splitOnChar '\n' old).filter
              (fun l => 0 < (jsTrim l).length)).get ⟨j, Nat.lt_trans hj hi⟩)).length
              < minL) →
          findMinimalPattern old minL
            = jsTrim (((splitOnChar '\n' old).filter
                (fun l => 0 < (jsTrim l).length)).get ⟨i, hi⟩)) ∧
      ((∀ l ∈ (splitOnChar '\n' old).filter (fun l => 0 < (jsTrim l).length),
          markerOrLong minL (jsTrim l) = false ∧ (jsTrim l).length < minL) →
        findMinimalPattern old minL = old.take (min old.length 100)) := by
  intro old minL
  refine ⟨rfl, ?_, ?_, ?_⟩
  · intro i hi hp hmin
    unfold findMinimalPattern
    rw [find_first_index (fun l => markerOrLong minL (jsTrim l)) _ i hi hp hmin]
  · intro hall i hi hp hmin
    unfold findMinimalPattern
    rw [List.find?_eq_none.mpr (fun l hl => by simp [hall l hl]),
      find_first_index (fun l => decide (minL ≤ (jsTrim l).length)) _ i hi
        (by simpa using hp)
        (fun j hj => by simpa using Nat.not_le.mpr (hmin j hj))]
  · intro hall
    unfold findMinimalPattern
    rw [List.find?_eq_none.mpr (fun l hl => by simp [(hall l hl).1]),
      List.find?_eq_none.mpr
        (fun l hl => by simpa using Nat.not_le.mpr (hall l hl).2)]

/-- Witness for C3: on the spec's own example the first non-blank line is a
marker line, so priority (a) applies and returns `function foo() {`. -/
theorem C3_minimal_pattern_witness :
    findMinimalPattern (toL "  \nfunction foo() \x7b\n  return 1;\n\x7d") 20
      = toL "function foo() \x7b" := by
  have h := ((C3_minimal_pattern_amended
      (toL "  \nfunction foo() \x7b\n  return 1;\n\x7d") 20).2.1)
    0 (by decide) (by decide) (fun j hj => by omega)
  simpa using h

theorem firstIdx_le_length (s pat : Str) :
    ∀ i, firstIdx s pat = some i → i ≤ s.length := by
  induction s with
  | nil =>
    intro i h
    simp only [firstIdx] at h
    split at h
    · cases h; simp
    · exact absurd h (by simp)
  | cons c rest ih =>
    intro i h
    simp only [firstIdx] at h
    split at h
    · cases h; simp
    · simp only [Option.map_eq_some'] at h
      obtain ⟨j, hj, rfl⟩ := h
      have := ih j hj
      simp only [List.length_cons]
      omega

/-- C2 as frozen is refuted here: with hunk `a → $&$&` applied to `"ab"`,
literal insertion of the hunk's `newText` would give `"$&$&b"`, but
`String.prototype.replace` expands `$&` to the matched text, so the code
produces `"aab"`. -/
theorem C2_counterexample :
    applyDiffHunks (toL "ab") [⟨toL "a", toL "$&$&"⟩] = toL "aab" ∧
    toL "aab" ≠ toL "$&$&b" := by
  decide

theorem expandDollar_cons_ne (m b a : Str) (c : Char) (rest : Str) (hc : c ≠ '$') :
    expandDollar m b a (c :: rest) = c :: expandDollar m b a rest := by
  rw [expandDollar.eq_def]
  split
  · rename_i heq; cases heq
  · rename_i heq
    injection heq with h1 _
    exact absurd h1 hc
  · rename_i heq
    injection heq with h1 _
    exact absurd h1 hc
  · rename_i heq
    injection heq with h1 _
    exact absurd h1 hc
  · rename_i heq
    injection heq with h1 h2
    rw [h1, h2]

/-- C2 (amended): hunks are applied in order against the successively
updated content; a hunk whose `oldText` is absent leaves the content
unchanged; a hunk whose `oldText` occurs replaces exactly the first
occurrence, matching `oldText` literally (no regex interpretation), but the
inserted text is `newText` as expanded by JS replacement-pattern rules
(`$$`, `$&`, `` $` ``, `$'`); in particular a `newText` containing no `$` is
inserted literally. -/
theorem C2_apply_hunks_amended :
    (∀ c : Str, applyDiffHunks c [] = c) ∧
    (∀ (c : Str) (h : Hunk) (t : List Hunk), ¬ Occurs h.oldText c →
      applyDiffHunks c (h :: t) = applyDiffHunks c t) ∧
    (∀ (c : Str) (h : Hunk) (t : List Hunk), Occurs h.oldText c →
      ∃ pre post,
        c = pre ++ h.oldText ++ post ∧
        (∀ j, j < pre.length → ¬ OccursAt h.oldText c j) ∧
        applyDiffHunks c (h :: t)
          = applyDiffHunks
              (pre ++ expandDollar h.oldText pre post h.newText ++ post) t) ∧
    (∀ (m b a new : Str), (∀ ch ∈ new, ch ≠ '$') →
      expandDollar m b a new = new) := by
  refine ⟨fun c => rfl, ?_, ?_, ?_⟩
  · intro c h t hocc
    have hs : hasSubstr c h.oldText = false := by
      rw [← Bool.not_eq_true, hasSubstr_iff]; exact hocc
    simp [applyDiffHunks, hs]
  · intro c h t hocc
    have hs : hasSubstr c h.oldText = true := (hasSubstr_iff _ _).mpr hocc
    have hsome : (firstIdx c h.oldText).isSome :=
      (firstIdx_isSome_iff _ _).mpr hocc
    obtain ⟨i, hi⟩ := Option.isSome_iff_exists.mp hsome
    obtain ⟨hat, hmin⟩ := firstIdx_spec c h.oldText i hi
    have hle : i ≤ c.length := firstIdx_le_length c h.oldText i hi
    refine ⟨c.take i, c.drop (i + h.oldText.length), ?_, ?_, ?_⟩
    · have hdec : h.oldText ++ (c.drop i).drop h.oldText.length = c.drop i :=
        List.prefix_iff_eq_append.mp hat
      calc c = c.take i ++ c.drop i := (List.take_append_drop i c).symm
        _ = c.take i ++ (h.oldText ++ (c.drop i).drop h.oldText.length) := by
            rw [hdec]
        _ = c.take i ++ h.oldText ++ c.drop (i + h.oldText.length) := by
            rw [List.drop_drop, List.append_assoc]
    · intro j hj
      have : (c.take i).length = i := by
        simp [List.length_take, Nat.min_eq_left hle]
      rw [this] at hj
      exact hmin j hj
    · simp only [applyDiffHunks, List.foldl_cons]
      rw [if_pos hs]
      unfold jsReplaceFirst
      rw [hi]
  · intro m b a new hnew
    induction new with
    | nil => rfl
    | cons c rest ih =>
      have hc : c ≠ '$' := hnew c (by simp)
      rw [expandDollar_cons_ne m b a c rest hc,
        ih (fun ch hch => hnew ch (by simp [hch]))]

/-- Witness for C2: the first-occurrence law at `"xay"` with hunk `a → Z`,
and the skip law at content `"q"` where the old text is absent. -/
theorem C2_apply_hunks_witness :
    (∃ pre post,
      toL "xay" = pre ++ toL "a" ++ post ∧
      (∀ j, j < pre.length → ¬ OccursAt (toL "a") (toL "xay") j) ∧
      applyDiffHunks (toL "xay") [⟨toL "a", toL "Z"⟩]
        = applyDiffHunks
            (pre ++ expandDollar (toL "a") pre post (toL "Z") ++ post) []) ∧
    applyDiffHunks (toL "q") [⟨toL "a", toL "Z"⟩] = applyDiffHunks (toL "q") [] :=
  ⟨C2_apply_hunks_amended.2.2.1 (toL "xay") ⟨toL "a", toL "Z"⟩ [] ⟨1, by decide⟩,
   C2_apply_hunks_amended.2.1 (toL "q") ⟨toL "a", toL "Z"⟩ []
     (fun hocc =>
       absurd ((hasSubstr_iff (toL "q") (toL "a")).mpr hocc) (by decide))⟩

theorem findPatterns_cons (q : Str) (rest : List Str) (bundles : List (Str × Str)) :
    findPatternsInBundles (q :: rest) bundles
      = match bundles.find? (fun fc => hasSubstr fc.2 q) with
        | some fc => (q, fc.1) :: findPatternsInBundles rest bundles
        | none => findPatternsInBundles rest bundles := by
  unfold findPatternsInBundles
  simp only [List.filterMap_cons]
  cases bundles.find? (fun fc => hasSubstr fc.2 q) <;> rfl

theorem lookup_findPatterns_none (bundles : List (Str × Str)) (p : Str)
    (hb : bundles.find? (fun fc => hasSubstr fc.2 p) = none) :
    ∀ pats, (findPatternsInBundles pats bundles).lookup p = none := by
  intro pats
  induction pats with
  | nil => rfl
  | cons q rest ih =>
    rw [findPatterns_cons]
    cases hq : bundles.find? (fun fc => hasSubstr fc.2 q) with
    | none => exact ih
    | some fc =>
      have hpq : p ≠ q := by
        intro h; rw [h, hq] at hb; cases hb
      have hb2 : (p == q) = false := by simpa using hpq
      rw [List.lookup_cons]
      simp only [hb2, Bool.false_eq_true, if_false]
      exact ih

theorem lookup_findPatterns (bundles : List (Str × Str)) :
    ∀ (pats : List Str) (p : Str), p ∈ pats →
      (findPatternsInBundles pats bundles).lookup p
        = (bundles.find? (fun fc => hasSubstr fc.2 p)).map Prod.fst := by
  intro pats
  induction pats with
  | nil => intro p hp; cases hp
  | cons q rest ih =>
    intro p hp
    rw [findPatterns_cons]
    by_cases hpq : p = q
    · subst hpq
      cases hq : bundles.find? (fun fc => hasSubstr fc.2 p) with
      | none => exact lookup_findPatterns_none bundles p hq rest
      | some fc => simp [List.lookup_cons]
    · have hmem : p ∈ rest := by
        rcases List.mem_cons.mp hp with h | h
        · exact absurd h hpq
        · exact h
      cases hq : bundles.find? (fun fc => hasSubstr fc.2 q) with
      | none => exact ih p hmem
      | some fc =>
        have hb2 : (p == q) = false := by simpa using hpq
        rw [List.lookup_cons]
        simp only [hb2, Bool.false_eq_true, if_false]
        exact ih p hmem

/-- The partition fold splits the hunks by whether their minimal pattern was
found in a bundle file, preserving hunk order on both sides. -/
theorem scaffoldPartition_spec (allHunks : List PRDiffHunk)
    (bundles : List (Str × Str)) :
    scaffoldPartition allHunks bundles
      = (allHunks.filter (fun h =>
            (bundles.find? (fun fc =>
              hasSubstr fc.2 (findMinimalPattern h.oldText 20))).isSome),
         (allHunks.filter (fun h =>
            !(bundles.find? (fun fc =>
              hasSubstr fc.2 (findMinimalPattern h.oldText 20))).isSome)).map
          (fun h => ⟨h.sourcePath, previewOldText h.oldText,
            toL "Pattern not found in any bundle file"⟩)) := by
  unfold scaffoldPartition
  have key : ∀ (hs : List PRDiffHunk) (pf : List (Str × Str)),
      (∀ h ∈ hs, pf.lookup (findMinimalPattern h.oldText 20)
        = (bundles.find? (fun fc =>
            hasSubstr fc.2 (findMinimalPattern h.oldText 20))).map Prod.fst) →
      hs.foldr
        (fun h acc =>
          match pf.lookup (findMinimalPattern h.oldText 20) with
          | some _ => (h :: acc.1, acc.2)
          | none =>
            (acc.1,
             (⟨h.sourcePath, previewOldText h.oldText,
               toL "Pattern not found in any bundle file"⟩ : UnmappedHunk) :: acc.2))
        ([], [])
      = (hs.filter (fun h =>
            (bundles.find? (fun fc =>
              hasSubstr fc.2 (findMinimalPattern h.oldText 20))).isSome),
         (hs.filter (fun h =>
            !(bundles.find? (fun fc =>
              hasSubstr fc.2 (findMinimalPattern h.oldText 20))).isSome)).map
          (fun h => ⟨h.sourcePath, previewOldText h.oldText,
            toL "Pattern not found in any bundle file"⟩)) := by
    intro hs pf hpf
    induction hs with
    | nil => rfl
    | cons h t ih =>
      have hh := hpf h (by simp)
      have ht := ih (fun h2 hmem => hpf h2 (by simp [hmem]))
      simp only [List.foldr_cons, ht]
      cases hb : bundles.find? (fun fc =>
          hasSubstr fc.2 (findMinimalPattern h.oldText 20)) with
      | none =>
        rw [hb] at hh
        simp [hh, List.filter_cons, hb]
      | some fc =>
        rw [hb] at hh
        simp [hh, List.filter_cons, hb]
  exact key allHunks _ (fun h hmem =>
    lookup_findPatterns bundles (allHunks.map (fun h => findMinimalPattern h.oldText 20))
      (findMinimalPattern h.oldText 20) (List.mem_map_of_mem _ hmem))

theorem previewOldText_length_le (s : Str) : (previewOldText s).length ≤ 103 := by
  have h3 : (toL "...").length = 3 := by decide
  unfold previewOldText
  by_cases h : 100 < s.length
  · simp [h, List.length_take, h3]
  · simp [h, List.length_take]

theorem filter_not_length {α : Type} (p : α → Bool) (l : List α) :
    (l.filter p).length + (l.filter (fun x => !p x)).length = l.length := by
  induction l with
  | nil => rfl
  | cons a t ih =>
    by_cases hp : p a <;> simp [List.filter_cons, hp, ← ih] <;> omega

set_option maxRecDepth 4000 in
/-- C8 as frozen is refuted here: the claim bounds each unmapped hunk's old
text preview at 100 characters and quotes the reason as
"pattern not found in any bundle file", but on a 101-character old text the
code appends `"..."` to the 100-character slice, giving a 103-character
preview, and the code's reason string is capitalized. -/
theorem C8_counterexample :
    (scaffoldFromPRCore (toL "pr-1") 1
        [⟨[], [], List.replicate 101 'a', toL "n", toL "s.ts"⟩]
        []).unmappedHunks.map (fun u => u.oldText.length) = [103] ∧
    ¬ (103 ≤ 100) ∧
    (scaffoldFromPRCore (toL "pr-1") 1
        [⟨[], [], List.replicate 101 'a', toL "n", toL "s.ts"⟩]
        []).unmappedHunks.map (fun u => u.reason)
      = [toL "Pattern not found in any bundle file"] ∧
    toL "Pattern not found in any bundle file"
      ≠ toL "pattern not found in any bundle file" := by
  decide

/-- C8 (amended): hunks are partitioned by whether their minimal pattern was
found in a bundle file; zero mapped hunks fail the whole import, at least
one mapped hunk succeeds it, mapped and unmapped counts add up to the hunk
count, and every unmapped hunk carries the reason
"Pattern not found in any bundle file" together with a preview equal to the
first 100 characters of its old text plus `"..."` when the old text is
longer than 100 characters — hence of at most 103 characters. -/
theorem C8_pr_import_amended :
    ∀ (patchName : Str) (prNumber : Nat) (allHunks : List PRDiffHunk)
      (bundles : List (Str × Str)),
      allHunks ≠ [] →
      ((scaffoldPartition allHunks bundles).1
          = allHunks.filter (fun h =>
              (bundles.find? (fun fc =>
                hasSubstr fc.2 (findMinimalPattern h.oldText 20))).isSome) ∧
        (scaffoldPartition allHunks bundles).2
          = (allHunks.filter (fun h =>
              !(bundles.find? (fun fc =>
                hasSubstr fc.2 (findMinimalPattern h.oldText 20))).isSome)).map
              (fun h => ⟨h.sourcePath, previewOldText h.oldText,
                toL "Pattern not found in any bundle file"⟩) ∧
        (scaffoldFromPRCore patchName prNumber allHunks bundles).unmappedHunks
          = (scaffoldPartition allHunks bundles).2 ∧
        ((scaffoldFromPRCore patchName prNumber allHunks bundles).success = false ↔
          (scaffoldPartition allHunks bundles).1 = []) ∧
        (scaffoldPartition allHunks bundles).1.length
            + (scaffoldPartition allHunks bundles).2.length
          = allHunks.length ∧
        (∀ u ∈ (scaffoldFromPRCore patchName prNumber allHunks bundles).unmappedHunks,
          u.reason = toL "Pattern not found in any bundle file" ∧
          u.oldText.length ≤ 103 ∧
          ∃ h ∈ allHunks, u.oldText = previewOldText h.oldText)) := by
  intro patchName prNumber allHunks bundles hne
  have hspec := scaffoldPartition_spec allHunks bundles
  have hcore : (scaffoldFromPRCore patchName prNumber allHunks bundles).unmappedHunks
      = (scaffoldPartition allHunks bundles).2 := by
    unfold scaffoldFromPRCore
    simp only [List.length_eq_zero]
    rw [if_neg hne]
    split <;> rfl
  refine ⟨by rw [hspec], by rw [hspec], hcore, ?_, ?_, ?_⟩
  · unfold scaffoldFromPRCore
    simp only [List.length_eq_zero]
    rw [if_neg hne]
    constructor
    · intro h
      split at h
      · next hz => exact List.length_eq_zero.mp (by simpa using hz)
      · simp at h
    · intro h
      rw [if_pos]
      simp [h]
  · rw [hspec]
    simpa using filter_not_length
      (fun h => (bundles.find? (fun fc =>
        hasSubstr fc.2 (findMinimalPattern h.oldText 20))).isSome) allHunks
  · intro u hu
    rw [hcore, hspec] at hu
    simp only [List.mem_map, List.mem_filter] at hu
    obtain ⟨h, ⟨hmem, _⟩, rfl⟩ := hu
    exact ⟨rfl, previewOldText_length_le _, h, hmem, rfl⟩

/-- Witness for C8: one hunk whose pattern is absent from the single bundle
file — the import fails and reports one unmapped hunk. -/
theorem C8_pr_import_witness :
    ((scaffoldPartition [⟨[], [], toL "alpha", toL "beta", toL "s.ts"⟩]
        [(toL "dist/gateway-cli-x.js", toL "nothing here")]).1
      = [] ) ∧
    (scaffoldFromPRCore (toL "pr-9") 9
        [⟨[], [], toL "alpha", toL "beta", toL "s.ts"⟩]
        [(toL "dist/gateway-cli-x.js", toL "nothing here")]).success = false := by
  have h := C8_pr_import_amended (toL "pr-9") 9
    [⟨[], [], toL "alpha", toL "beta", toL "s.ts"⟩]
    [(toL "dist/gateway-cli-x.js", toL "nothing here")]
    (by decide)
  refine ⟨?_, ?_⟩
  · rw [h.1]; decide
  · rw [h.2.2.2.1, h.1]; decide

/-! ## Facts about line splitting and the PR diff parser -/

theorem splitOnChar_not_mem (sep : Char) (s : Str) (h : sep ∉ s) :
    splitOnChar sep s = [s] := by
  induction s with
  | nil => rfl
  | cons c rest ih =>
    have hc : ¬ c = sep := fun hq => h (by simp [hq])
    have hr := ih (fun hm => h (by simp [hm]))
    simp only [splitOnChar, hc, if_false, hr]

theorem splitOnChar_append_sep (sep : Char) (x z : Str) (hx : sep ∉ x) :
    splitOnChar sep (x ++ sep :: z) = x :: splitOnChar sep z := by
  induction x with
  | nil => simp [splitOnChar]
  | cons c rest ih =>
    have hc : ¬ c = sep := fun hq => hx (by simp [hq])
    have hr := ih (fun hm => hx (by simp [hm]))
    rw [List.cons_append, splitOnChar, if_neg hc, hr]

theorem joinWith_cons (sep : Str) (l : Str) (l2 : Str) (ls : List Str) :
    joinWith sep (l :: l2 :: ls) = l ++ sep ++ joinWith sep (l2 :: ls) := rfl

theorem splitOnChar_joinNl (lines : List Str) (hne : lines ≠ [])
    (hfree : ∀ l ∈ lines, '\n' ∉ l) :
    splitOnChar '\n' (joinNl lines) = lines := by
  induction lines with
  | nil => exact absurd rfl hne
  | cons x rest ih =>
    cases rest with
    | nil =>
      exact splitOnChar_not_mem '\n' x (hfree x (by simp))
    | cons y rest2 =>
      have hx : '\n' ∉ x := hfree x (by simp)
      have : joinNl (x :: y :: rest2) = x ++ '\n' :: joinNl (y :: rest2) := by
        simp [joinNl, joinWith_cons, toL]
      rw [this, splitOnChar_append_sep '\n' x _ hx,
        ih (by simp) (fun l hl => hfree l (by simp [hl]))]

theorem prStep_header (path l : Str) (st : PRParseState)
    (h : (toL "@@").isPrefixOf l = true) :
    prStep path st l = ⟨true, [], [], [], false, prFlush path st⟩ := by
  unfold prStep
  rw [if_pos h]

theorem prStep_ctx_line (path l : Str) (ol nl cb : List Str)
    (hk : List PRDiffHunk) :
    prStep path ⟨true, ol, nl, cb, false, hk⟩ (' ' :: l)
      = ⟨true, ol, nl, cb ++ [l], false, hk⟩ := by
  unfold prStep
  simp [toL, List.isPrefixOf]

theorem prStep_add_line (path l : Str) (ol nl cb : List Str) (sc : Bool)
    (hk : List PRDiffHunk) :
    prStep path ⟨true, ol, nl, cb, sc, hk⟩ ('+' :: l)
      = ⟨true, ol, nl ++ [l], cb, true, hk⟩ := by
  unfold prStep
  simp [toL, List.isPrefixOf]

theorem foldl_prStep_ctx (path : Str) (ctx : List Str) :
    ∀ (ol nl cb : List Str) (hk : List PRDiffHunk),
      (ctx.map (fun l => ' ' :: l)).foldl (prStep path) ⟨true, ol, nl, cb, false, hk⟩
        = ⟨true, ol, nl, cb ++ ctx, false, hk⟩ := by
  induction ctx with
  | nil => intro ol nl cb hk; simp
  | cons c rest ih =>
    intro ol nl cb hk
    simp only [List.map_cons, List.foldl_cons, prStep_ctx_line, ih,
      List.append_assoc, List.singleton_append]

theorem foldl_prStep_adds (path : Str) (adds : List Str) :
    adds ≠ [] →
    ∀ (ol nl cb : List Str) (sc : Bool) (hk : List PRDiffHunk),
      (adds.map (fun l => '+' :: l)).foldl (prStep path) ⟨true, ol, nl, cb, sc, hk⟩
        = ⟨true, ol, nl ++ adds, cb, true, hk⟩ := by
  induction adds with
  | nil => intro h; exact absurd rfl h
  | cons a rest ih =>
    intro _ ol nl cb sc hk
    cases hrest : rest with
    | nil => simp [prStep_add_line]
    | cons b rest2 =>
      rw [List.map_cons, List.foldl_cons, prStep_add_line, ← hrest,
        ih (by simp [hrest])]
      simp

/-- C9: a change block consisting only of added lines takes the last
up-to-3 preceding context lines as `oldText` and prepends them to the added
lines for `newText`; with no preceding context at all the block is dropped. -/
theorem C9_pure_insertion_block :
    ∀ (path hdr : Str) (ctx adds : List Str),
      (toL "@@").isPrefixOf hdr = true →
      '\n' ∉ hdr →
      (∀ l ∈ ctx, '\n' ∉ l) →
      (∀ l ∈ adds, '\n' ∉ l) →
      adds ≠ [] →
      parsePRFilePatch
          (joinNl (hdr :: (ctx.map (fun l => ' ' :: l) ++ adds.map (fun l => '+' :: l))))
          path
        = if ctx = [] then []
          else
            [⟨takeLast 3 ctx, takeLast 3 ctx ++ adds, joinNl (takeLast 3 ctx),
              joinNl (takeLast 3 ctx ++ adds), path⟩] := by
  intro path hdr ctx adds hhdr hfh hfc hfa hne
  have hfree : ∀ l ∈ hdr ::
      (ctx.map (fun l => ' ' :: l) ++ adds.map (fun l => '+' :: l)), '\n' ∉ l := by
    intro l hl
    rcases List.mem_cons.mp hl with h | h
    · rw [h]; exact hfh
    · rcases List.mem_append.mp h with h2 | h2
      · obtain ⟨l0, hl0, rfl⟩ := List.mem_map.mp h2
        simpa using hfc l0 hl0
      · obtain ⟨l0, hl0, rfl⟩ := List.mem_map.mp h2
        simpa using hfa l0 hl0
  unfold parsePRFilePatch
  rw [splitOnChar_joinNl _ (by simp) hfree]
  rw [List.foldl_cons, prStep_header path hdr _ hhdr]
  have hflush0 : prFlush path ⟨false, [], [], [], false, []⟩ = [] := rfl
  rw [hflush0, List.foldl_append, foldl_prStep_ctx,
    foldl_prStep_adds path adds hne]
  unfold prFlush flushHunk
  by_cases hctx : ctx = []
  · subst hctx
    have hlen : adds.length > 0 := List.length_pos.mpr hne
    simp [hlen]
  · have hlen : adds.length > 0 := List.length_pos.mpr hne
    have hclen : ctx.length > 0 :=
      List.length_pos.mpr (by simpa using hctx)
    simp [hlen, hclen, hctx]

/-- Witness for C9: one context line and one added line produce the
insertion-after-context hunk; header only plus added lines produce none. -/
theorem C9_pure_insertion_witness :
    parsePRFilePatch (joinNl [toL "@@ -1,2 +1,3 @@", toL " ctx", toL "+added"])
        (toL "f.ts")
      = [⟨[toL "ctx"], [toL "ctx", toL "added"], toL "ctx", toL "ctx\nadded",
          toL "f.ts"⟩] ∧
    parsePRFilePatch (joinNl [toL "@@ -0,0 +1,1 @@", toL "+added"]) (toL "f.ts")
      = [] := by
  constructor
  · have h := C9_pure_insertion_block (toL "f.ts") (toL "@@ -1,2 +1,3 @@")
      [toL "ctx"] [toL "added"] (by decide) (by decide) (by decide) (by decide)
      (by decide)
    simpa using h
  · have h := C9_pure_insertion_block (toL "f.ts") (toL "@@ -0,0 +1,1 @@")
      [] [toL "added"] (by decide) (by decide) (by decide) (by decide)
      (by decide)
    simpa using h

/-! ## Facts about the block format round trip (C4) -/

theorem occurs_iff_infix (pat s : Str) : Occurs pat s ↔ pat <:+: s := by
  constructor
  · rintro ⟨i, h⟩
    exact List.infix_iff_prefix_suffix.mpr ⟨s.drop i, h, List.drop_suffix i s⟩
  · rintro ⟨pre, post, h⟩
    refine ⟨pre.length, ?_⟩
    unfold OccursAt
    rw [← h, List.append_assoc, List.drop_left]
    exact List.prefix_append pat post

theorem not_occurs_of_hasSubstr_false {pat s : Str}
    (h : hasSubstr s pat = false) : ¬ pat <:+: s := by
  intro hin
  rw [← occurs_iff_infix] at hin
  rw [(hasSubstr_iff s pat).mpr hin] at h
  cases h

theorem prefix_split_of_lt (pat old z : Str) (k : Nat) (hk : k < old.length)
    (hocc : pat <+: (old ++ z).drop k) :
    pat <:+: old ∨
    ∃ t, 0 < t ∧ t < pat.length ∧ old.drop k = pat.take t ∧
      pat.drop t = z.take (pat.length - t) := by
  have hdrop : (old ++ z).drop k = old.drop k ++ z := by
    rw [List.drop_append_eq_append_drop]
    have h0 : k - old.length = 0 := by omega
    rw [h0, List.drop_zero]
  rw [hdrop] at hocc
  have htlen : (old.drop k).length = old.length - k := by simp
  by_cases hle : pat.length ≤ old.length - k
  · left
    have heq := List.prefix_iff_eq_take.mp hocc
    rw [List.take_append_eq_append_take, htlen] at heq
    have hz : pat.length - (old.length - k) = 0 := by omega
    rw [hz, List.take_zero, List.append_nil] at heq
    have hpre : pat <+: old.drop k := by
      rw [heq]; exact List.take_prefix _ _
    exact List.infix_iff_prefix_suffix.mpr ⟨old.drop k, hpre, List.drop_suffix k old⟩
  · right
    have hlt : old.length - k < pat.length := by omega
    have heq := List.prefix_iff_eq_take.mp hocc
    rw [List.take_append_eq_append_take,
      List.take_of_length_le (by simp only [List.length_drop]; omega), htlen] at heq
    refine ⟨old.length - k, by omega, hlt, ?_, ?_⟩
    · conv_rhs => rw [heq]
      exact (List.take_left' htlen).symm
    · conv_lhs => rw [heq]
      exact List.drop_left' htlen

theorem afterMarker_length : afterMarker.length = 15 := by decide

theorem endMarker_length : endMarker.length = 12 := by decide

theorem beforeMarker_length : beforeMarker.length = 15 := by decide

theorem am_border :
    ∀ t, t < 15 → 0 < t →
      afterMarker.drop t = afterMarker.take (15 - t) → t = 14 := by
  decide

theorem em_border :
    ∀ t, t < 12 → 0 < t → endMarker.drop t ≠ endMarker.take (12 - t) := by
  decide

theorem coreA_infix_afterMarker : (toL "=== AFTER ===") <:+: afterMarker := by decide

theorem coreA_infix_take14 : (toL "=== AFTER ===") <:+: afterMarker.take 14 := by
  decide

/-- No occurrence of the AFTER marker can start strictly inside `old` when
`old` does not contain `=== AFTER ===`. -/
theorem am_not_occursAt_lt (old w : Str)
    (hA : hasSubstr old (toL "=== AFTER ===") = false) :
    ∀ k, k < old.length → ¬ OccursAt afterMarker (old ++ (afterMarker ++ w)) k := by
  intro k hk hocc
  unfold OccursAt at hocc
  rcases prefix_split_of_lt afterMarker old (afterMarker ++ w) k hk hocc with
    hin | ⟨t, ht0, htlt, hdropk, hdropt⟩
  · exact not_occurs_of_hasSubstr_false hA
      (List.IsInfix.trans coreA_infix_afterMarker hin)
  · rw [afterMarker_length] at htlt hdropt
    rw [List.take_append_of_le_length (by rw [afterMarker_length]; omega)] at hdropt
    have ht14 : t = 14 := am_border t htlt ht0 hdropt
    rw [ht14] at hdropk
    have hin : (toL "=== AFTER ===") <:+: old :=
      List.IsInfix.trans (hdropk ▸ coreA_infix_take14)
        (List.IsSuffix.isInfix (List.drop_suffix k old))
    exact not_occurs_of_hasSubstr_false hA hin

/-- No occurrence of the END marker can start strictly inside `new` when
`new` does not contain `=== END ===`. -/
theorem em_not_occursAt_lt (new w : Str)
    (hE : hasSubstr new (toL "=== END ===") = false) :
    ∀ m, m < new.length → ¬ OccursAt endMarker (new ++ (endMarker ++ w)) m := by
  intro m hm hocc
  unfold OccursAt at hocc
  rcases prefix_split_of_lt endMarker new (endMarker ++ w) m hm hocc with
    hin | ⟨t, ht0, htlt, _, hdropt⟩
  · exact not_occurs_of_hasSubstr_false hE
      (List.IsInfix.trans (by decide : (toL "=== END ===") <:+: endMarker) hin)
  · rw [endMarker_length] at htlt hdropt
    rw [List.take_append_of_le_length (by rw [endMarker_length]; omega)] at hdropt
    exact em_border t htlt ht0 hdropt

theorem firstIdx_eq_some (s pat : Str) :
    ∀ i, OccursAt pat s i → (∀ j, j < i → ¬ OccursAt pat s j) →
      firstIdx s pat = some i := by
  induction s with
  | nil =>
    intro i hi hmin
    have hp : pat = [] :=
      List.eq_nil_of_prefix_nil (by simpa [OccursAt] using hi)
    have hi0 : i = 0 := by
      by_contra hne
      exact hmin 0 (by omega) (by simp [OccursAt, hp])
    subst hi0
    simp [firstIdx, hp]
  | cons c rest ih =>
    intro i hi hmin
    match i with
    | 0 =>
      have hpp : pat.isPrefixOf (c :: rest) = true := by
        rw [List.isPrefixOf_iff_prefix]
        simpa [OccursAt] using hi
      simp [firstIdx, hpp]
    | i + 1 =>
      have hnp : ¬ pat.isPrefixOf (c :: rest) = true := by
        rw [List.isPrefixOf_iff_prefix]
        have := hmin 0 (by omega)
        simpa [OccursAt] using this
      simp only [firstIdx, hnp, if_false, Bool.false_eq_true]
      rw [ih i (by simpa [OccursAt] using hi)
        (fun j hj => by simpa [OccursAt] using hmin (j + 1) (by omega))]
      rfl

theorem firstQualIdx_eq_some (patA patE : Str) :
    ∀ (s : Str) (k : Nat),
      OccursAt patA s k →
      hasSubstr (s.drop (k + patA.length)) patE = true →
      (∀ j, j < k → ¬ (OccursAt patA s j ∧
        hasSubstr (s.drop (j + patA.length)) patE = true)) →
      firstQualIdx patA patE s = some k := by
  intro s
  induction s with
  | nil =>
    intro k hk hsub hmin
    have hp : patA = [] :=
      List.eq_nil_of_prefix_nil (by simpa [OccursAt] using hk)
    have he : hasSubstr ([] : Str) patE = true := by
      simpa using hsub
    have hk0 : k = 0 := by
      by_contra hne
      exact hmin 0 (by omega) ⟨by simp [OccursAt, hp], by simpa using he⟩
    subst hk0
    simp [firstQualIdx, hp, List.isPrefixOf_iff_prefix, he]
  | cons c rest ih =>
    intro k hk hsub hmin
    match k with
    | 0 =>
      have hpp : patA.isPrefixOf (c :: rest) = true := by
        rw [List.isPrefixOf_iff_prefix]
        simpa [OccursAt] using hk
      have hss : hasSubstr ((c :: rest).drop patA.length) patE = true := by
        simpa using hsub
      simp [firstQualIdx, hpp, hss]
    | k + 1 =>
      have hcond : ¬ (patA.isPrefixOf (c :: rest) = true ∧
          hasSubstr ((c :: rest).drop patA.length) patE = true) := by
        intro ⟨h1, h2⟩
        exact hmin 0 (by omega)
          ⟨by simpa [OccursAt, List.isPrefixOf_iff_prefix] using h1, by simpa using h2⟩
      have hcond2 : (patA.isPrefixOf (c :: rest) &&
          hasSubstr ((c :: rest).drop patA.length) patE) = false := by
        rw [← Bool.not_eq_true, Bool.and_eq_true]
        exact hcond
      simp only [firstQualIdx, hcond2, if_false, Bool.false_eq_true]
      rw [ih k (by simpa [OccursAt] using hk)
        (by
          have : rest.drop (k + patA.length) = (c :: rest).drop (k + 1 + patA.length) := by
            have : k + 1 + patA.length = (k + patA.length) + 1 := by omega
            rw [this]
            rfl
          rw [this]
          exact hsub)
        (fun j hj hand => by
          refine hmin (j + 1) (by omega) ⟨by simpa [OccursAt] using hand.1, ?_⟩
          have heq : (c :: rest).drop (j + 1 + patA.length)
              = rest.drop (j + patA.length) := by
            have : j + 1 + patA.length = (j + patA.length) + 1 := by omega
            rw [this]
            rfl
          rw [heq]
          exact hand.2)]
      rfl

theorem beforeMarker_cons : beforeMarker = '=' :: toL "== BEFORE ===\n" := by
  decide

theorem findBlockStart_eq_some :
    ∀ (s : Str) (j : Nat),
      OccursAt beforeMarker s j →
      (firstQualIdx afterMarker endMarker (s.drop (j + beforeMarker.length))).isSome
        = true →
      (∀ i, i < j → ¬ (OccursAt beforeMarker s i ∧
        (firstQualIdx afterMarker endMarker
          (s.drop (i + beforeMarker.length))).isSome = true)) →
      findBlockStart s = some j := by
  intro s
  induction s with
  | nil =>
    intro j hj _ _
    exact absurd (List.eq_nil_of_prefix_nil (by simpa [OccursAt] using hj))
      (by decide)
  | cons c rest ih =>
    intro j hj hq hmin
    match j with
    | 0 =>
      have hpp : beforeMarker.isPrefixOf (c :: rest) = true := by
        rw [List.isPrefixOf_iff_prefix]
        simpa [OccursAt] using hj
      have hqq : (firstQualIdx afterMarker endMarker
          ((c :: rest).drop beforeMarker.length)).isSome = true := by
        simpa using hq
      simp [findBlockStart, hpp, hqq]
    | j + 1 =>
      have hcond : (beforeMarker.isPrefixOf (c :: rest) &&
          (firstQualIdx afterMarker endMarker
            ((c :: rest).drop beforeMarker.length)).isSome) = false := by
        rw [← Bool.not_eq_true, Bool.and_eq_true]
        intro ⟨h1, h2⟩
        exact hmin 0 (by omega)
          ⟨by simpa [OccursAt, List.isPrefixOf_iff_prefix] using h1, by simpa using h2⟩
      simp only [findBlockStart, hcond, if_false, Bool.false_eq_true]
      rw [ih j (by simpa [OccursAt] using hj)
        (by
          have heq : (c :: rest).drop (j + 1 + beforeMarker.length)
              = rest.drop (j + beforeMarker.length) := by
            have : j + 1 + beforeMarker.length = (j + beforeMarker.length) + 1 := by
              omega
            rw [this]
            rfl
          rw [heq] at hq
          exact hq)
        (fun i hi hand => by
          refine hmin (i + 1) (by omega) ⟨by simpa [OccursAt] using hand.1, ?_⟩
          have heq : (c :: rest).drop (i + 1 + beforeMarker.length)
              = rest.drop (i + beforeMarker.length) := by
            have : i + 1 + beforeMarker.length = (i + beforeMarker.length) + 1 := by
              omega
            rw [this]
            rfl
          rw [heq]
          exact hand.2)]
      rfl

theorem findBlockStart_none_of_no_eq (pre : Str) (h : ∀ c ∈ pre, c ≠ '=') :
    findBlockStart pre = none := by
  induction pre with
  | nil => decide
  | cons c rest ih =>
    have hc : c ≠ '=' := h c (by simp)
    have hbm : beforeMarker.isPrefixOf (c :: rest) = false := by
      rw [← Bool.not_eq_true, List.isPrefixOf_iff_prefix]
      intro hpre
      rw [beforeMarker_cons] at hpre
      exact hc (List.cons_prefix_iff.mp hpre).1.symm
    simp only [findBlockStart, hbm, Bool.false_and, if_false, Bool.false_eq_true]
    rw [ih (fun c2 hc2 => h c2 (by simp [hc2]))]
    rfl

theorem parseBlocksFuel_nil : ∀ fuel, parseBlocksFuel fuel [] = [] := by
  intro fuel
  cases fuel with
  | zero => rfl
  | succ f =>
    simp only [parseBlocksFuel]
    rw [findBlockStart_none_of_no_eq [] (by simp)]

/-- One regex match: on `pre ++ block ++ z` with an `=`-free `pre` and a
clean hunk, the first match is exactly the serialized block, the two lazy
groups recover `oldText` and `newText`, and `lastIndex` lands at `z`. -/
theorem parse_block_step (h : Hunk) (z pre : Str)
    (hpre : ∀ c ∈ pre, c ≠ '=')
    (hclean : cleanHunk h = true) :
    ∀ fuel, parseBlocksFuel (fuel + 1) (pre ++ (hunkBlock h ++ z))
      = h :: parseBlocksFuel fuel z := by
  obtain ⟨old, new⟩ := h
  have hcc : (¬ old = [] ∧ hasSubstr old (toL "=== AFTER ===") = false) ∧
      hasSubstr new (toL "=== END ===") = false := by
    simpa [cleanHunk, Bool.and_eq_true, Bool.not_eq_true'] using hclean
  obtain ⟨⟨h1, h2⟩, h3⟩ := hcc
  intro fuel
  set s := pre ++ (hunkBlock ⟨old, new⟩ ++ z) with hsdef
  have hview : s = pre ++ (beforeMarker ++ (old ++ (afterMarker ++ (new ++ (endMarker ++ z))))) := by
    simp [hsdef, hunkBlock, List.append_assoc]
  have hF2 : s.drop (pre.length + beforeMarker.length)
      = old ++ (afterMarker ++ (new ++ (endMarker ++ z))) := by
    rw [hview, show pre ++ (beforeMarker ++ (old ++ (afterMarker ++ (new ++ (endMarker ++ z)))))
        = (pre ++ beforeMarker) ++ (old ++ (afterMarker ++ (new ++ (endMarker ++ z))))
      from by simp [List.append_assoc]]
    exact List.drop_left' (by simp)
  have hW2 : (old ++ (afterMarker ++ (new ++ (endMarker ++ z)))).drop
      (old.length + afterMarker.length) = new ++ (endMarker ++ z) := by
    rw [show old ++ (afterMarker ++ (new ++ (endMarker ++ z)))
        = (old ++ afterMarker) ++ (new ++ (endMarker ++ z))
      from by simp [List.append_assoc]]
    exact List.drop_left' (by simp)
  have hq1 : firstQualIdx afterMarker endMarker
      (old ++ (afterMarker ++ (new ++ (endMarker ++ z)))) = some old.length := by
    apply firstQualIdx_eq_some
    · unfold OccursAt
      rw [List.drop_left]
      exact List.prefix_append _ _
    · rw [hW2, hasSubstr_iff]
      refine ⟨new.length, ?_⟩
      unfold OccursAt
      rw [List.drop_left]
      exact List.prefix_append _ _
    · intro j hj hand
      exact am_not_occursAt_lt old (new ++ (endMarker ++ z)) h2 j hj hand.1
  have hFB : findBlockStart s = some pre.length := by
    apply findBlockStart_eq_some
    · unfold OccursAt
      rw [hview, List.drop_left]
      exact List.prefix_append _ _
    · rw [hF2, hq1]
      rfl
    · intro i hi hand
      have hocc := hand.1
      unfold OccursAt at hocc
      have hdropsplit : s.drop i = pre.drop i ++ (hunkBlock ⟨old, new⟩ ++ z) := by
        rw [hsdef, List.drop_append_eq_append_drop,
          show i - pre.length = 0 from by omega, List.drop_zero]
      rw [hdropsplit, List.drop_eq_get_cons hi, beforeMarker_cons,
        List.cons_append] at hocc
      exact hpre (pre.get ⟨i, hi⟩) (List.get_mem pre i hi)
        ((List.cons_prefix_iff.mp hocc).1.symm)
  have hfi : firstIdx (new ++ (endMarker ++ z)) endMarker = some new.length := by
    apply firstIdx_eq_some
    · unfold OccursAt
      rw [List.drop_left]
      exact List.prefix_append _ _
    · intro j hj
      exact em_not_occursAt_lt new z h3 j hj
  simp only [parseBlocksFuel]
  rw [hFB]
  simp only [hF2, hq1, hW2, hfi]
  rw [List.take_left, show (new ++ (endMarker ++ z)).drop (new.length + endMarker.length)
      = z from by
        rw [show new ++ (endMarker ++ z) = (new ++ endMarker) ++ z
          from by simp [List.append_assoc]]
        exact List.drop_left' (by simp),
    List.take_left]

theorem serialize_eq_map (hunks : List Hunk)
    (hcl : ∀ h ∈ hunks, cleanHunk h = true) :
    hunksToSimpleFormat hunks = joinWith (toL "\n\n") (hunks.map hunkBlock) := by
  unfold hunksToSimpleFormat
  congr 1
  induction hunks with
  | nil => rfl
  | cons h t ih =>
    have hne : h.oldText ≠ [] := by
      have := hcl h (by simp)
      simp [cleanHunk, Bool.and_eq_true, Bool.not_eq_true'] at this
      exact this.1.1
    simp only [List.filterMap_cons, List.map_cons, hne, ne_eq, not_false_iff,
      if_pos]
    rw [ih (fun h2 hm => hcl h2 (by simp [hm]))]

theorem length_le_joinBlocks (hunks : List Hunk) :
    hunks.length ≤ (joinWith (toL "\n\n") (hunks.map hunkBlock)).length := by
  induction hunks with
  | nil => simp
  | cons h t ih =>
    have hb : 15 ≤ (hunkBlock h).length := by
      simp only [hunkBlock, List.length_append, beforeMarker_length]
      omega
    cases t with
    | nil =>
      simp only [List.map_cons, List.map_nil, joinWith, List.length_cons,
        List.length_nil]
      omega
    | cons h2 t2 =>
      rw [List.map_cons, List.map_cons, joinWith_cons]
      simp only [List.length_append, List.length_cons]
      have ih2 := ih
      rw [List.map_cons] at ih2
      simp only [List.length_cons] at ih2
      omega

theorem parse_join (hunks : List Hunk) :
    (∀ h ∈ hunks, cleanHunk h = true) →
    ∀ (pre : Str), (∀ c ∈ pre, c ≠ '=') →
    ∀ fuel, hunks.length ≤ fuel →
    parseBlocksFuel fuel (pre ++ joinWith (toL "\n\n") (hunks.map hunkBlock))
      = hunks := by
  induction hunks with
  | nil =>
    intro _ pre hpre fuel _
    simp only [List.map_nil, joinWith, List.append_nil]
    cases fuel with
    | zero => rfl
    | succ f =>
      simp only [parseBlocksFuel]
      rw [findBlockStart_none_of_no_eq pre hpre]
  | cons h t ih =>
    intro hcl pre hpre fuel hfuel
    match fuel with
    | 0 => simp at hfuel
    | f + 1 =>
      cases t with
      | nil =>
        have : pre ++ joinWith (toL "\n\n") ([h].map hunkBlock)
            = pre ++ (hunkBlock h ++ []) := by
          simp [joinWith]
        rw [this, parse_block_step h [] pre hpre (hcl h (by simp)) f,
          parseBlocksFuel_nil]
      | cons h2 t2 =>
        have hjoin : pre ++ joinWith (toL "\n\n") ((h :: h2 :: t2).map hunkBlock)
            = pre ++ (hunkBlock h
                ++ (toL "\n\n" ++ joinWith (toL "\n\n") ((h2 :: t2).map hunkBlock))) := by
          rw [List.map_cons, List.map_cons, joinWith_cons]
          simp [List.append_assoc]
        rw [hjoin, parse_block_step h _ pre hpre (hcl h (by simp)) f,
          ih (fun hh hm => hcl hh (by simp [hm])) (toL "\n\n") (by decide) f
            (by simpa using Nat.le_of_succ_le_succ hfuel)]

/-- C4 as frozen is refuted here: a hunk with empty `oldText` (JS-falsy) is
dropped by `hunksToSimpleFormat`, so serializing `[⟨"", "x"⟩]` gives the
empty string and parsing it back yields `[]`, not the original list. -/
theorem C4_counterexample :
    hunksToSimpleFormat [⟨[], toL "x"⟩] = [] ∧
    parseDiffHunks (hunksToSimpleFormat [⟨[], toL "x"⟩]) = [] ∧
    ([] : List Hunk) ≠ [⟨[], toL "x"⟩] := by
  refine ⟨by decide, by decide, by decide⟩

/-- C4 (amended): for every list of hunks in which each hunk's `oldText` is
nonempty, no `oldText` contains the text `=== AFTER ===`, and no `newText`
contains the text `=== END ===`, serializing to the BEFORE/AFTER block
format and parsing the result with the block parser yields the identical
hunk list, `oldText` and `newText` preserved exactly (embedded newlines
included). -/
theorem C4_roundtrip_amended :
    ∀ hunks : List Hunk, (∀ h ∈ hunks, cleanHunk h = true) →
      parseDiffHunks (hunksToSimpleFormat hunks) = hunks := by
  intro hunks hcl
  rw [serialize_eq_map hunks hcl]
  unfold parseDiffHunks
  have hlen := length_le_joinBlocks hunks
  have := parse_join hunks hcl [] (by simp)
    ((joinWith (toL "\n\n") (hunks.map hunkBlock)).length + 1) (by omega)
  simpa using this

/-- Witness for C4: a two-hunk list with multi-line old text and an empty
new text (pure deletion) survives the round trip unchanged. -/
theorem C4_roundtrip_witness :
    parseDiffHunks
        (hunksToSimpleFormat [⟨toL "a", toL "b"⟩, ⟨toL "c\nd", toL ""⟩])
      = [⟨toL "a", toL "b"⟩, ⟨toL "c\nd", toL ""⟩] :=
  C4_roundtrip_amended _ (by decide)
